import Mathlib

/-!
Verification development for the standalone compute/federation backend in
`python/fate/arch/_standalone.py`.

The embedding models byte strings as `List Nat` (one entry per byte), an LMDB
partition as an association list in key insertion/sorted order, and a table as
a `List` of partition stores.  Python callables that may raise are modelled as
`Option`-returning functions; Python exceptions are modelled by the `PyErr`
type.  External library behaviour (LMDB `put`/`get`/`delete`, `pickle`
serialization of small nonnegative integers) is modelled concretely; each such
definition carries a doc comment naming what it models.
-/

/-- Byte strings: a list of byte values.  Python `bytes` compare
byte-lexicographically, with a proper prefix ordered first. -/
abbrev Bytes := List Nat

/-- Byte-lexicographic strict order on byte strings, as Python compares
`bytes` values: elementwise, with a proper prefix smaller than its
extensions. -/
def bytesLt : Bytes → Bytes → Bool
  | [], [] => false
  | [], _ :: _ => true
  | _ :: _, [] => false
  | a :: as, b :: bs => if a < b then true else if b < a then false else bytesLt as bs

/-- One LMDB partition database: an association list from byte keys to byte
values.  LMDB stores at most one value per key (no dupsort database is ever
opened by the source). -/
abbrev Store := List (Bytes × Bytes)

/-- Models `txn.get(k)`: the value stored for `k`, if any. -/
def sget : Store → Bytes → Option Bytes
  | [], _ => none
  | (k, v) :: rest, k' => if k' = k then some v else sget rest k'

/-- Replace the binding of `k` if present, else append the new binding.
This is the state effect of an LMDB `put` with `overwrite=True`. -/
def sput : Store → Bytes → Bytes → Store
  | [], k, v => [(k, v)]
  | (k0, v0) :: rest, k, v => if k = k0 then (k, v) :: rest else (k0, v0) :: sput rest k v

/-- Remove the binding of `k` (the first one, which is the only one for a
well-formed store). -/
def sremove : Store → Bytes → Store
  | [], _ => []
  | (k0, v0) :: rest, k => if k = k0 then rest else (k0, v0) :: sremove rest k

/-- Whether key `k` is bound in the store. -/
def keyMemB (k : Bytes) (s : Store) : Bool := s.any (fun e => e.1 = k)

/-- Models `lmdb.Transaction.put(k, v, overwrite=...)` of the py-lmdb
library: with `overwrite=True` the pair is always written and `True` is
returned; with `overwrite=False` and the key already present, nothing is
written and `False` is returned. -/
def lmdbPut (overwrite : Bool) (s : Store) (k v : Bytes) : Store × Bool :=
  if !overwrite && (sget s k).isSome then (s, false) else (sput s k v, true)

/-- Models `lmdb.Transaction.delete(k)`: returns whether the key was present
(and got removed) together with the new store. -/
def lmdbDelete (s : Store) (k : Bytes) : Bool × Store :=
  if keyMemB k s then (true, sremove s k) else (false, s)

/-- Python exceptions that the modelled code paths can raise. -/
inductive PyErr
  | typeError
  | keyError
  | runtimeError
  | userError
  deriving DecidableEq, Repr

/-! ## Table metadata (`_TableMeta`, `_TableMetaManager.get_table_meta`) -/

/-- Big-endian 4-byte encoding, as `int.to_bytes(4, "big")` produces for an
integer below `2 ^ 32` (larger integers make `to_bytes` raise). -/
def toBE4 (n : Nat) : Bytes :=
  [n / 2 ^ 24 % 256, n / 2 ^ 16 % 256, n / 2 ^ 8 % 256, n % 256]

/-- Big-endian decoding, as `int.from_bytes(b, "big")`. -/
def fromBE (b : Bytes) : Nat := b.foldl (fun acc x => acc * 256 + x) 0

/-- The table metadata record of `_TableMeta`: four unsigned 32-bit fields. -/
structure _TableMeta where
  num_partitions : Nat
  key_serdes_type : Nat
  value_serdes_type : Nat
  partitioner_type : Nat
  deriving DecidableEq, Repr

/-- `_TableMeta.serialize`: the four fields as big-endian u32, concatenated. -/
def _TableMeta.serialize (m : _TableMeta) : Bytes :=
  toBE4 m.num_partitions ++ toBE4 m.key_serdes_type ++
    toBE4 m.value_serdes_type ++ toBE4 m.partitioner_type

/-- `_TableMeta.deserialize`: decode the four big-endian u32 slices. -/
def _TableMeta.deserialize (b : Bytes) : _TableMeta :=
  { num_partitions := fromBE (b.take 4)
    key_serdes_type := fromBE ((b.drop 4).take 4)
    value_serdes_type := fromBE ((b.drop 8).take 4)
    partitioner_type := fromBE ((b.drop 12).take 4) }

/-- Models `pickle.dumps(i)` (the module-level `serialize`) of the CPython
`pickle` library at its default protocol 4 for a nonnegative integer below
`2 ^ 32`: protocol header `\x80\x04`; then, whenever the remaining content
reaches 4 bytes (every `n ≥ 256`), the FRAME opcode `\x95` with the 8-byte
little-endian length of that content; then the BININT1 / BININT2 / BININT4 /
LONG1 opcode with the little-endian payload; then the STOP opcode `.`.  For
example `pickle.dumps(300)` is `80 04 95 04 00 00 00 00 00 00 00 4d 2c 01
2e`, with frame length 4 covering `4d 2c 01 2e`. -/
def pickleInt (n : Nat) : Bytes :=
  if n < 256 then [0x80, 4, 0x4B, n, 0x2E]
  else if n < 65536 then
    [0x80, 4, 0x95, 4, 0, 0, 0, 0, 0, 0, 0, 0x4D, n % 256, n / 256, 0x2E]
  else if n < 2 ^ 31 then
    [0x80, 4, 0x95, 6, 0, 0, 0, 0, 0, 0, 0,
      0x4A, n % 256, n / 2 ^ 8 % 256, n / 2 ^ 16 % 256, n / 2 ^ 24, 0x2E]
  else
    [0x80, 4, 0x95, 8, 0, 0, 0, 0, 0, 0, 0,
      0x8A, 5, n % 256, n / 2 ^ 8 % 256, n / 2 ^ 16 % 256, n / 2 ^ 24 % 256,
      0, 0x2E]

/-- Models `pickle.loads` (the module-level `deserialize`) on the integer
encodings produced by `pickleInt`; any other byte string makes `loads` raise,
which is modelled by `none`. -/
def unpickleInt : Bytes → Option Nat
  | [0x80, 4, 0x4B, b0, 0x2E] => if b0 < 256 then some b0 else none
  | [0x80, 4, 0x95, 4, 0, 0, 0, 0, 0, 0, 0, 0x4D, b0, b1, 0x2E] =>
    if b0 < 256 && b1 < 256 then some (b0 + 256 * b1) else none
  | [0x80, 4, 0x95, 6, 0, 0, 0, 0, 0, 0, 0, 0x4A, b0, b1, b2, b3, 0x2E] =>
    if b0 < 256 && b1 < 256 && b2 < 256 && b3 < 128 then
      some (b0 + 2 ^ 8 * b1 + 2 ^ 16 * b2 + 2 ^ 24 * b3)
    else none
  | [0x80, 4, 0x95, 8, 0, 0, 0, 0, 0, 0, 0, 0x8A, 5, b0, b1, b2, b3, 0, 0x2E] =>
    if b0 < 256 && b1 < 256 && b2 < 256 && b3 < 256 then
      some (b0 + 2 ^ 8 * b1 + 2 ^ 16 * b2 + 2 ^ 24 * b3)
    else none
  | _ => none

/-- The value-decoding step of `_TableMetaManager.get_table_meta` on a present
catalog value: first try the general deserializer (legacy form holding only
`num_partitions`), padding the three type tags with zeros; if that raises,
fall back to the fixed-layout `_TableMeta.deserialize`. -/
def get_table_meta_decode (b : Bytes) : _TableMeta :=
  match unpickleInt b with
  | some n => ⟨n, 0, 0, 0⟩
  | none => _TableMeta.deserialize b

theorem fromBE_toBE4 (n : Nat) (h : n < 2 ^ 32) : fromBE (toBE4 n) = n := by
  simp only [fromBE, toBE4, List.foldl]
  omega

set_option maxHeartbeats 1600000 in
theorem unpickleInt_pickleInt (n : Nat) (h : n < 2 ^ 32) :
    unpickleInt (pickleInt n) = some n := by
  unfold pickleInt
  by_cases h1 : n < 256
  · simp [unpickleInt, h1]
  · by_cases h2 : n < 65536
    · simp only [if_neg h1, if_pos h2, unpickleInt]
      split_ifs with hc
      · rw [Option.some.injEq]; omega
      · exfalso; simp only [Bool.and_eq_true, decide_eq_true_eq] at hc; omega
    · by_cases h3 : n < 2 ^ 31
      · simp only [if_neg h1, if_neg h2, if_pos h3, unpickleInt]
        split_ifs with hc
        · rw [Option.some.injEq]; omega
        · exfalso; simp only [Bool.and_eq_true, decide_eq_true_eq] at hc; omega
      · simp only [if_neg h1, if_neg h2, if_neg h3, unpickleInt]
        split_ifs with hc
        · rw [Option.some.injEq]; omega
        · exfalso; simp only [Bool.and_eq_true, decide_eq_true_eq] at hc; omega

/-! ## Basic store lemmas -/

theorem sget_sput_self (s : Store) (k v : Bytes) : sget (sput s k v) k = some v := by
  induction s with
  | nil => simp [sput, sget]
  | cons e rest ih =>
    obtain ⟨k0, v0⟩ := e
    by_cases h : k = k0
    · simp [sput, sget, h]
    · simp [sput, sget, h, ih]

theorem sget_sput_ne (s : Store) (k v k2 : Bytes) (h : k2 ≠ k) :
    sget (sput s k v) k2 = sget s k2 := by
  induction s with
  | nil => simp [sput, sget, h]
  | cons e rest ih =>
    obtain ⟨k0, v0⟩ := e
    by_cases h0 : k = k0
    · subst h0
      simp [sput, sget, h]
    · by_cases h2 : k2 = k0
      · simp [sput, sget, h0, h2]
      · simp [sput, sget, h0, h2, ih]

theorem sget_eq_none_of_not_mem (s : Store) (k : Bytes) (h : k ∉ s.map Prod.fst) :
    sget s k = none := by
  induction s with
  | nil => rfl
  | cons e rest ih =>
    obtain ⟨k0, v0⟩ := e
    simp only [List.map_cons, List.mem_cons] at h
    push_neg at h
    simp [sget, h.1, ih h.2]

theorem keyMemB_iff (s : Store) (k : Bytes) :
    keyMemB k s = true ↔ (sget s k).isSome := by
  induction s with
  | nil => simp [keyMemB, sget]
  | cons e rest ih =>
    obtain ⟨k0, v0⟩ := e
    by_cases h : k = k0
    · simp [keyMemB, sget, h]
    · simp only [keyMemB, List.any_cons] at *
      simp [sget, h, Ne.symm h, ih]

theorem sget_sremove_ne (s : Store) (k k2 : Bytes) (h : k2 ≠ k) :
    sget (sremove s k) k2 = sget s k2 := by
  induction s with
  | nil => rfl
  | cons e rest ih =>
    obtain ⟨k0, v0⟩ := e
    by_cases h0 : k = k0
    · subst h0
      simp [sremove, sget, h]
    · by_cases h2 : k2 = k0
      · simp [sremove, sget, h0, h2]
      · simp [sremove, sget, h0, h2, ih]

theorem sget_sremove_self (s : Store) (k : Bytes) (h : (s.map Prod.fst).Nodup) :
    sget (sremove s k) k = none := by
  induction s with
  | nil => rfl
  | cons e rest ih =>
    obtain ⟨k0, v0⟩ := e
    simp only [List.map_cons, List.nodup_cons] at h
    by_cases h0 : k = k0
    · subst h0
      simp only [sremove, if_pos rfl]
      exact sget_eq_none_of_not_mem rest k h.1
    · simp [sremove, sget, h0, ih h.2]

theorem list_set_getD_self {α : Type} (l : List α) (p : Nat) (d : α) :
    l.set p (l.getD p d) = l := by
  induction l generalizing p with
  | nil => rfl
  | cons a t ih =>
    cases p with
    | zero => rfl
    | succ q =>
      show a :: t.set q (t.getD q d) = a :: t
      rw [ih]

/-! ## Claim C5: metadata round trip and legacy decoding -/

/-- C5: for every metadata record with u32 fields, `deserialize (serialize m)`
equals `m` field by field; and a legacy record, produced by the general value
serializer applied to the single integer `num_partitions`, is decoded by
`get_table_meta` to that `num_partitions` with zeros for the three type
tags. -/
theorem table_meta_roundtrip (m : _TableMeta) (n : Nat)
    (h1 : m.num_partitions < 2 ^ 32) (h2 : m.key_serdes_type < 2 ^ 32)
    (h3 : m.value_serdes_type < 2 ^ 32) (h4 : m.partitioner_type < 2 ^ 32)
    (h5 : n < 2 ^ 32) :
    _TableMeta.deserialize (_TableMeta.serialize m) = m ∧
      get_table_meta_decode (pickleInt n) = ⟨n, 0, 0, 0⟩ := by
  constructor
  · obtain ⟨a, b, c, d⟩ := m
    simp only at h1 h2 h3 h4
    simp only [_TableMeta.serialize, _TableMeta.deserialize, toBE4, List.cons_append,
      List.nil_append, List.take, List.drop, fromBE, List.foldl, _TableMeta.mk.injEq]
    refine ⟨by omega, by omega, by omega, by omega⟩
  · rw [get_table_meta_decode, unpickleInt_pickleInt n h5]

/-- Witness for `table_meta_roundtrip` at a concrete record and legacy value. -/
theorem table_meta_roundtrip_witness :
    _TableMeta.deserialize (_TableMeta.serialize ⟨4, 1, 2, 3⟩) = ⟨4, 1, 2, 3⟩ ∧
      get_table_meta_decode (pickleInt 300) = ⟨300, 0, 0, 0⟩ :=
  table_meta_roundtrip ⟨4, 1, 2, 3⟩ 300 (by decide) (by decide) (by decide)
    (by decide) (by decide)

/-! ## Claim C2: `_create_table` against an existing catalog entry -/

/-- The table-meta catalog, with values already decoded: what
`_TableMetaManager.get_table_meta` returns per `(namespace, name)` key. -/
abbrev Catalog := List ((String × String) × _TableMeta)

/-- Models `_TableMetaManager.get_table_meta` as a lookup in the decoded
catalog. -/
def catalogGet : Catalog → String → String → Option _TableMeta
  | [], _, _ => none
  | (key, m) :: rest, ns, name =>
    if key = (ns, name) then some m else catalogGet rest ns name

/-- The dynamic value held by `Table._partitions`.  Python is untyped, so the
field can hold either the integer partition count or (through the slip in
`_create_table`) a whole `_TableMeta` record. -/
inductive PyPartitions
  | ofInt (n : Nat)
  | ofMeta (m : _TableMeta)
  deriving DecidableEq, Repr

/-- A `Table` handle as built by the `Table` constructor. -/
structure TableHandle where
  ns : String
  name : String
  partitions : PyPartitions
  key_serdes_type : Nat
  value_serdes_type : Nat
  partitioner_type : Nat
  need_cleanup : Bool
  deriving DecidableEq, Repr

/-- Models `_create_table`: if no catalog entry exists, add the metadata and
use the caller's partition count; otherwise raise when `error_if_exist`, else
reassign `partitions = exist_partitions` — where `exist_partitions` is the
whole `_TableMeta` record returned by `get_table_meta`, not its
`num_partitions` field — and build the handle from it. -/
def _create_table (c : Catalog) (name ns : String) (partitions : Nat)
    (key_serdes_type value_serdes_type partitioner_type : Nat)
    (need_cleanup error_if_exist : Bool) : Except PyErr (TableHandle × Catalog) :=
  match catalogGet c ns name with
  | none =>
    .ok (⟨ns, name, .ofInt partitions, key_serdes_type, value_serdes_type,
           partitioner_type, need_cleanup⟩,
         ((ns, name), ⟨partitions, key_serdes_type, value_serdes_type,
           partitioner_type⟩) :: c)
  | some m =>
    if error_if_exist then .error .runtimeError
    else
      .ok (⟨ns, name, .ofMeta m, key_serdes_type, value_serdes_type,
             partitioner_type, need_cleanup⟩, c)

/-- C2 (code-bug evidence): with an existing catalog entry recording 4
partitions, `_create_table` with `error_if_exist=false` returns a handle whose
`partitions` attribute is the whole metadata record — not the integer 4 the
claim (and `_load_table`, which reads `table_meta.num_partitions`) expects —
while `error_if_exist=true` correctly raises and leaves the catalog
unchanged. -/
theorem create_table_existing_bug :
    _create_table [(("ns", "t"), ⟨4, 0, 0, 0⟩)] "t" "ns" 7 0 0 0 true false =
      .ok (⟨"ns", "t", .ofMeta ⟨4, 0, 0, 0⟩, 0, 0, 0, true⟩,
           [(("ns", "t"), ⟨4, 0, 0, 0⟩)]) ∧
    PyPartitions.ofMeta ⟨4, 0, 0, 0⟩ ≠ PyPartitions.ofInt 4 ∧
    _create_table [(("ns", "t"), ⟨4, 0, 0, 0⟩)] "t" "ns" 7 0 0 0 true true =
      .error .runtimeError := by
  refine ⟨rfl, ?_, rfl⟩
  intro h
  cases h

/-! ## Claim C9: `Table.delete` -/

/-- Models `Table.delete(k_bytes, partitioner)`: pick the partition with the
caller's partitioner, read the old value, delete, and return the deserialized
old value exactly when the delete removed something.  The per-value codec
(`deserialize`) is a parameter of the embedding. -/
def Table.delete {V : Type} (deser : Bytes → V) (partitioner : Bytes → Nat → Nat)
    (parts : List Store) (k : Bytes) : Option V × List Store :=
  let p := partitioner k parts.length
  let s := parts.getD p []
  let old := sget s k
  match lmdbDelete s k with
  | (true, s2) => (old.map deser, parts.set p s2)
  | (false, s2) => (none, parts.set p s2)

/-- C9: when `k` is present in partition `partitioner(k, num_partitions)`,
`delete` returns the deserialized previously stored value and removes exactly
that entry; when `k` is absent it returns `None` and the table is
unchanged. -/
theorem delete_spec {V : Type} (deser : Bytes → V) (partitioner : Bytes → Nat → Nat)
    (parts : List Store) (k : Bytes)
    (hnd : ((parts.getD (partitioner k parts.length) []).map Prod.fst).Nodup) :
    (∀ v, sget (parts.getD (partitioner k parts.length) []) k = some v →
      Table.delete deser partitioner parts k =
        (some (deser v),
         parts.set (partitioner k parts.length)
           (sremove (parts.getD (partitioner k parts.length) []) k)) ∧
      sget (sremove (parts.getD (partitioner k parts.length) []) k) k = none ∧
      (∀ k2, k2 ≠ k →
        sget (sremove (parts.getD (partitioner k parts.length) []) k) k2 =
          sget (parts.getD (partitioner k parts.length) []) k2)) ∧
    (sget (parts.getD (partitioner k parts.length) []) k = none →
      Table.delete deser partitioner parts k = (none, parts)) := by
  constructor
  · intro v hv
    have hmem : keyMemB k (parts.getD (partitioner k parts.length) []) = true := by
      rw [keyMemB_iff, hv]
      rfl
    refine ⟨?_, sget_sremove_self _ _ hnd, fun k2 h2 => sget_sremove_ne _ _ _ h2⟩
    simp only [Table.delete, lmdbDelete, hmem, if_pos, hv]
    rfl
  · intro hv
    have hmem : keyMemB k (parts.getD (partitioner k parts.length) []) = false := by
      rw [← Bool.not_eq_true, keyMemB_iff, hv]
      simp
    simp only [Table.delete, lmdbDelete, hmem, Bool.false_eq_true, if_false,
      list_set_getD_self]

/-- Witness for `delete_spec`: a one-partition table holding key `[1]`;
deleting `[1]` returns the (identity-deserialized) value and empties the
partition, deleting the absent key `[2]` returns `none` and changes
nothing. -/
theorem delete_spec_witness :
    Table.delete (fun b => b) (fun _ _ => 0) [[([1], [9])]] [1] = (some [9], [[]]) ∧
    Table.delete (fun b => b) (fun _ _ => 0) [[([1], [9])]] [2] =
      (none, [[([1], [9])]]) := by
  constructor
  · exact ((delete_spec (fun b => b) (fun _ _ => 0) [[([1], [9])]] [1]
      (by decide)).1 [9] (by decide)).1
  · exact (delete_spec (fun b => b) (fun _ _ => 0) [[([1], [9])]] [2]
      (by decide)).2 (by decide)

/-! ## Claim C1: `Table.put_all` atomicity across partitions -/

/-- The body of `Table.put_all`'s dispatch loop, acting on the open write
transactions (one buffered store per partition, initialized from the durable
stores).  For each pair the partitioner picks a partition; an index outside
`range(num_partitions)` hits the missing `txn_map[p]` entry (`KeyError`) and a
raising partitioner (modelled by `none`) propagates — both are caught by the
surrounding `except` which aborts every transaction.  A put returning `False`
stops the loop, after which the transactions are committed as on normal
exit. -/
def putAllLoop (n : Nat) (partitioner : Bytes → Nat → Option Nat) :
    List (Bytes × Bytes) → List Store → Except PyErr (List Store)
  | [], txns => .ok txns
  | (k, v) :: rest, txns =>
    match partitioner k n with
    | none => .error .userError
    | some p =>
      if p < n then
        match lmdbPut true (txns.getD p []) k v with
        | (s2, true) => putAllLoop n partitioner rest (txns.set p s2)
        | (s2, false) => .ok (txns.set p s2)
      else .error .keyError

/-- Models `Table.put_all(kv_list, partitioner)`: open a write transaction on
every partition, dispatch each pair, then either commit every transaction (no
exception) or abort them all and re-raise, leaving the durable stores
untouched.  The first component is the raised exception, if any; the second is
the durable state afterwards. -/
def put_all (partitioner : Bytes → Nat → Option Nat) (kv : List (Bytes × Bytes))
    (parts : List Store) : Option PyErr × List Store :=
  match putAllLoop parts.length partitioner kv parts with
  | .ok txns => (none, txns)
  | .error e => (some e, parts)

/-- Whether the partitioner sends every pair of the batch to a partition
index in `range(num_partitions)` without raising. -/
def allValid (n : Nat) (partitioner : Bytes → Nat → Option Nat)
    (kv : List (Bytes × Bytes)) : Bool :=
  kv.all fun e =>
    match partitioner e.1 n with
    | some p => decide (p < n)
    | none => false

/-- The intended effect of a fully successful batch: every pair written (in
order) into the partition the partitioner chose for it. -/
def putAllPure (n : Nat) (partitioner : Bytes → Nat → Option Nat)
    (kv : List (Bytes × Bytes)) (parts : List Store) : List Store :=
  kv.foldl
    (fun ps e =>
      match partitioner e.1 n with
      | some p => ps.set p (sput (ps.getD p []) e.1 e.2)
      | none => ps)
    parts

theorem lmdbPut_overwrite (s : Store) (k v : Bytes) :
    lmdbPut true s k v = (sput s k v, true) := rfl

theorem putAllLoop_ok (n : Nat) (partitioner : Bytes → Nat → Option Nat)
    (kv : List (Bytes × Bytes)) (txns : List Store)
    (h : allValid n partitioner kv = true) :
    putAllLoop n partitioner kv txns = .ok (putAllPure n partitioner kv txns) := by
  induction kv generalizing txns with
  | nil => rfl
  | cons e rest ih =>
    obtain ⟨k, v⟩ := e
    simp only [allValid, List.all_cons, Bool.and_eq_true] at h
    obtain ⟨hhead, htail⟩ := h
    simp only [putAllLoop, putAllPure, List.foldl_cons]
    cases hp : partitioner k n with
    | none => rw [hp] at hhead; cases hhead
    | some p =>
      rw [hp] at hhead
      simp only [decide_eq_true_eq] at hhead
      simp only [if_pos hhead, lmdbPut_overwrite]
      exact ih (txns.set p (sput (txns.getD p []) k v)) htail

theorem putAllLoop_err (n : Nat) (partitioner : Bytes → Nat → Option Nat)
    (kv : List (Bytes × Bytes)) (txns : List Store)
    (h : allValid n partitioner kv = false) :
    ∃ e, putAllLoop n partitioner kv txns = .error e := by
  induction kv generalizing txns with
  | nil => simp [allValid] at h
  | cons hd rest ih =>
    obtain ⟨k, v⟩ := hd
    simp only [allValid, List.all_cons, Bool.and_eq_false_iff] at h
    simp only [putAllLoop]
    cases hp : partitioner k n with
    | none => exact ⟨.userError, rfl⟩
    | some p =>
      by_cases hlt : p < n
      · simp only [if_pos hlt, lmdbPut_overwrite]
        apply ih
        rcases h with h | h
        · rw [hp] at h; simp [hlt] at h
        · exact h
      · exact ⟨.keyError, by simp [if_neg hlt]⟩

/-- C1: `put_all` is all-or-nothing.  If every pair's partition lookup
succeeds in range, no exception is raised and the committed state holds every
pair of the call, written to the partition the partitioner chose; otherwise an
exception is re-raised and the durable state is exactly the state before the
call.  No outcome commits only a proper prefix of the pairs.  (The loop's
`break` on a put returning `False` cannot fire: the put uses the default
`overwrite=True`, which always returns `True`.) -/
theorem put_all_atomic (partitioner : Bytes → Nat → Option Nat)
    (kv : List (Bytes × Bytes)) (parts : List Store) :
    ((put_all partitioner kv parts).1 = none ↔
      allValid parts.length partitioner kv = true) ∧
    (put_all partitioner kv parts).2 =
      (if allValid parts.length partitioner kv then
        putAllPure parts.length partitioner kv parts
      else parts) := by
  by_cases h : allValid parts.length partitioner kv = true
  · rw [put_all, putAllLoop_ok parts.length partitioner kv parts h]
    simp [h]
  · rw [Bool.not_eq_true] at h
    obtain ⟨e, he⟩ := putAllLoop_err parts.length partitioner kv parts h
    rw [put_all, he]
    simp [h]

/-! ## Claim C10: `_repartition` identity and `save_as` -/

/-- The table handle data used by `_repartition` / `save_as` / `copy_as`. -/
structure TableT where
  ns : String
  name : String
  partitions : Nat
  need_cleanup : Bool
  deriving DecidableEq, Repr

/-- The filesystem world these operations act on: per-`(namespace, name)`
partition data, plus the log of tables created so far (to express that an
operation creates no table). -/
structure World where
  data : List ((String × String) × List Store)
  created : List (String × String)
  deriving DecidableEq, Repr

/-- Partition data of a named table in the world. -/
def worldGet : List ((String × String) × List Store) → (String × String) → List Store
  | [], _ => []
  | (key, v) :: rest, key2 => if key = key2 then v else worldGet rest key2

/-- Denotes `Table.copy_as`: `map_reduce_partitions_with_index` in no-shuffle
mode with the identity mapper, i.e. a new table under `(namespace, name)`
whose partition `i` holds exactly the pairs of input partition `i`. -/
def copy_as (t : TableT) (name ns : String) (need_cleanup : Bool) (w : World) :
    TableT × World :=
  (⟨ns, name, t.partitions, need_cleanup⟩,
   { data := ((ns, name), worldGet w.data (t.ns, t.name)) :: w.data,
     created := (ns, name) :: w.created })

/-- Models `Table._repartition(partitions)`: when the target equals the
current partition count the method returns `self` immediately, touching
nothing.  Otherwise it calls
`_create_table(self._session, name, namespace, partitions, need_cleanup)`,
which binds `need_cleanup` to the `key_serdes_type` parameter and omits the
required `value_serdes_type` and `partitioner_type` arguments, so Python
raises `TypeError` before anything is created. -/
def _repartition (t : TableT) (partitions : Nat) (w : World) :
    Except PyErr (TableT × World) :=
  if partitions = t.partitions then .ok (t, w)
  else .error .typeError

/-- Models `Table.save_as(name, namespace, partitions, need_cleanup)`:
repartition first only when a partition count is given and differs from the
current one, else a plain `copy_as`. -/
def save_as (t : TableT) (name ns : String) (partitions : Option Nat)
    (need_cleanup : Bool) (w : World) : Except PyErr (TableT × World) :=
  match partitions with
  | some p =>
    if p ≠ t.partitions then
      (_repartition t p w).map fun r => copy_as r.1 name ns need_cleanup r.2
    else .ok (copy_as t name ns need_cleanup w)
  | none => .ok (copy_as t name ns need_cleanup w)

/-- C10: `_repartition` with the current partition count returns the same
handle and leaves the world unchanged (no new table, no copied data), and
`save_as` with the current partition count reduces to a plain `copy_as`. -/
theorem repartition_identity (t : TableT) (w : World) (name ns : String)
    (nc : Bool) :
    _repartition t t.partitions w = .ok (t, w) ∧
    save_as t name ns (some t.partitions) nc w = .ok (copy_as t name ns nc w) := by
  constructor
  · simp [_repartition]
  · simp [save_as]

/-! ## Claim C8: `reduce` -/

/-- Models `_do_reduce`: left-fold the partition's values through the user
reducer, starting from the first value; `None` for an empty partition. -/
def _do_reduce (func : Bytes → Bytes → Bytes) (vals : List Bytes) : Option Bytes :=
  vals.foldl
    (fun acc v =>
      match acc with
      | none => some v
      | some a => some (func a v))
    none

/-- Models `Session.submit_reduce`: run `_do_reduce` on every partition in
partition order, keep the non-`None` partial results, and fold the reducer
over them once more on the driver; `None` when nothing remains. -/
def submit_reduce (func : Bytes → Bytes → Bytes) (parts : List (List Bytes)) :
    Option Bytes :=
  let rs := (parts.map (_do_reduce func)).filterMap id
  match rs with
  | [] => none
  | r :: rest => some (rest.foldl func r)

/-- The spec's description of `reduce`, stated independently of the code:
left-fold the reducer over each non-empty partition's values in partition
order, then left-fold once more over the per-partition results; null on empty
input. -/
def reduceSpec (func : Bytes → Bytes → Bytes) (parts : List (List Bytes)) :
    Option Bytes :=
  let partials := parts.filterMap fun vs =>
    match vs with
    | [] => none
    | v :: rest => some (rest.foldl func v)
  match partials with
  | [] => none
  | p :: ps => some (ps.foldl func p)

theorem _do_reduce_eq (func : Bytes → Bytes → Bytes) (vals : List Bytes) :
    _do_reduce func vals =
      match vals with
      | [] => none
      | v :: rest => some (rest.foldl func v) := by
  cases vals with
  | nil => rfl
  | cons v rest =>
    show List.foldl _ (some v) rest = some (rest.foldl func v)
    induction rest generalizing v with
    | nil => rfl
    | cons w tail ih => exact ih (func v w)

/-- C8: `Table.reduce` returns null exactly on a table with no entries, and
otherwise equals the spec's two-level left-fold: per non-empty partition in
partition order, then once more over the partial results on the driver. -/
theorem reduce_matches_spec (func : Bytes → Bytes → Bytes)
    (parts : List (List Bytes)) :
    submit_reduce func parts = reduceSpec func parts ∧
    (parts.all List.isEmpty = true → submit_reduce func parts = none) := by
  have hlist : (parts.map (_do_reduce func)).filterMap id =
      parts.filterMap fun vs =>
        match vs with
        | [] => none
        | v :: rest => some (rest.foldl func v) := by
    rw [List.filterMap_map]
    exact List.filterMap_congr fun vs _ => _do_reduce_eq func vs
  constructor
  · unfold submit_reduce reduceSpec
    rw [hlist]
  · intro hempty
    unfold submit_reduce
    rw [hlist]
    have : (parts.filterMap fun vs =>
        match vs with
        | [] => none
        | v :: rest => some (rest.foldl func v)) = [] := by
      rw [List.filterMap_eq_nil_iff]
      intro vs hvs
      rw [List.all_eq_true] at hempty
      have := hempty vs hvs
      cases vs with
      | nil => rfl
      | cons v rest => simp [List.isEmpty] at this
    rw [this]

/-- Witness for `reduce_matches_spec` on an all-empty two-partition table. -/
theorem reduce_matches_spec_witness :
    submit_reduce (fun a b => a ++ b) [[], []] = none :=
  (reduce_matches_spec (fun a b => a ++ b) [[], []]).2 (by decide)

/-! ## Claim C3: `Federation.remote` for oversize non-table payloads -/

/-- Models `num_slice = (byte_size - 1) // max_message_size + 1` with Python
floor division: `0` when `byte_size = 0` (the floor of `-1 / max` is `-1`),
else the Nat division agrees with the floor. -/
def numSlice (byteSize maxSize : Nat) : Nat :=
  if byteSize = 0 then 0 else (byteSize - 1) / maxSize + 1

/-- Result of `_get_splits`: either the payload unchanged (at most one
slice), or the chunk key-value list. -/
inductive SplitsResult
  | whole (objBytes : Bytes) (n : Nat)
  | chunks (kv : List (Bytes × Bytes)) (n : Nat)
  deriving DecidableEq, Repr

/-- Models `_get_splits(obj, max_message_size)` at byte level, taking the
serialized payload as input: when more than one slice is needed, the pairs
are `(serialize(i), obj_bytes[i*max : (i+1)*max])` — the keys are the
pickled chunk indices. -/
def _get_splits (objBytes : Bytes) (maxSize : Nat) : SplitsResult :=
  if numSlice objBytes.length maxSize ≤ 1 then
    .whole objBytes (numSlice objBytes.length maxSize)
  else
    .chunks
      ((List.range (numSlice objBytes.length maxSize)).map fun i =>
        (pickleInt i, (objBytes.drop (i * maxSize)).take maxSize))
      (numSlice objBytes.length maxSize)

/-- Outcome of the non-`Table` branch of `Federation.remote`. -/
inductive RemoteOutcome
  | objectInline (objBytes : Bytes)
  deriving DecidableEq, Repr

/-- Models the non-`Table` branch of `Federation.remote`: a payload that fits
in one slice is sent inline (dtype OBJECT).  The oversize branch calls
`_create_table(session=..., name=..., namespace=..., partitions=1,
need_cleanup=True, error_if_exist=False)` without the required
`key_serdes_type`, `value_serdes_type` and `partitioner_type` arguments, so
Python raises `TypeError` there (and the following
`v.put_all(kv_list=v_splits)` also lacks its required `partitioner`
argument); nothing is stored and no status entry is published. -/
def remote_non_table (objBytes : Bytes) (maxSize : Nat) :
    Except PyErr RemoteOutcome :=
  match _get_splits objBytes maxSize with
  | .whole b _ => .ok (.objectInline b)
  | .chunks _ _ => .error .typeError

/-- C3 (code-bug evidence): for every non-table payload whose serialized
length exceeds the max message size, `remote` raises `TypeError` instead of
materializing the split table; moreover the chunk pairs `_get_splits` had
computed use `serialize(i)` (pickled integers) as keys, not
`big-endian-u32(i)`. -/
theorem remote_oversize_raises (objBytes : Bytes) (maxSize : Nat)
    (hpos : 0 < maxSize) (hover : maxSize < objBytes.length) :
    remote_non_table objBytes maxSize = .error .typeError ∧
    _get_splits objBytes maxSize =
      .chunks
        ((List.range (numSlice objBytes.length maxSize)).map fun i =>
          (pickleInt i, (objBytes.drop (i * maxSize)).take maxSize))
        (numSlice objBytes.length maxSize) ∧
    pickleInt 0 ≠ toBE4 0 := by
  have h1 : 1 < numSlice objBytes.length maxSize := by
    unfold numSlice
    rw [if_neg (by omega)]
    have : 1 ≤ (objBytes.length - 1) / maxSize := (Nat.one_le_div_iff hpos).2 (by omega)
    omega
  have hns : ¬ numSlice objBytes.length maxSize ≤ 1 := by omega
  refine ⟨?_, ?_, by decide⟩
  · unfold remote_non_table _get_splits
    rw [if_neg hns]
  · unfold _get_splits
    rw [if_neg hns]

/-- Witness for `remote_oversize_raises`: a 3-byte payload with max message
size 1. -/
theorem remote_oversize_raises_witness :
    remote_non_table [0, 1, 2] 1 = .error .typeError :=
  (remote_oversize_raises [0, 1, 2] 1 (by decide) (by decide)).1

/-! ## Claim C6: `join` -/

/-- The loop of `_do_join` over the left partition's cursor: keys absent from
the right partition are skipped; for shared keys the merge result is written
to the destination transaction; an exception from `merge_op` is re-raised
wrapped with both raw byte payloads (modelled by the error carrying the
pair). -/
def joinLoop (func : Bytes → Bytes → Option Bytes) (right : Store) :
    Store → Store → Except (Bytes × Bytes) Store
  | [], dst => .ok dst
  | (k, v1) :: rest, dst =>
    match sget right k with
    | none => joinLoop func right rest dst
    | some v2 =>
      match func v1 v2 with
      | none => .error (v1, v2)
      | some v3 => joinLoop func right rest (sput dst k v3)

/-- Models `_do_join` on one aligned partition pair: iterate the left
partition against the right one into a fresh destination partition. -/
def _do_join (func : Bytes → Bytes → Option Bytes) (left right : Store) :
    Except (Bytes × Bytes) Store :=
  joinLoop func right left []

theorem joinLoop_ok (func : Bytes → Bytes → Option Bytes) (right : Store)
    (rest dst out : Store) (hok : joinLoop func right rest dst = .ok out)
    (hnd : (rest.map Prod.fst).Nodup)
    (hdisj : ∀ k, (sget rest k).isSome → sget dst k = none) :
    ∀ k, sget out k =
      ((sget rest k).bind fun v1 => (sget right k).bind fun v2 => func v1 v2).or
        (sget dst k) := by
  induction rest generalizing dst with
  | nil =>
    intro k
    simp only [joinLoop, Except.ok.injEq] at hok
    subst hok
    simp [sget]
  | cons e rest2 ih =>
    obtain ⟨k0, v1⟩ := e
    simp only [List.map_cons, List.nodup_cons] at hnd
    have hk0rest : ∀ k2, (sget rest2 k2).isSome → k2 ≠ k0 := by
      intro k2 hsome hkeq
      subst hkeq
      have : sget rest2 k2 = none := sget_eq_none_of_not_mem rest2 k2 (by
        intro hmem
        exact hnd.1 (by simpa using hmem))
      rw [this] at hsome
      cases hsome
    have hheadget : sget ((k0, v1) :: rest2) k0 = some v1 := by simp [sget]
    simp only [joinLoop] at hok
    intro k
    cases hr : sget right k0 with
    | none =>
      rw [hr] at hok
      simp only [] at hok
      have hdisj2 : ∀ k2, (sget rest2 k2).isSome → sget dst k2 = none := by
        intro k2 hsome
        exact hdisj k2 (by
          have := hk0rest k2 hsome
          simpa [sget, this] using hsome)
      have hres := ih dst hok hnd.2 hdisj2
      by_cases hk : k = k0
      · subst hk
        have h1 : sget rest2 k = none := by
          cases h2 : sget rest2 k with
          | none => rfl
          | some w => exact absurd rfl (hk0rest k (by rw [h2]; rfl))
        have h3 : sget dst k = none := hdisj k (by rw [hheadget]; rfl)
        rw [hres k, hheadget, hr, h1, h3]
        rfl
      · rw [hres k]
        simp [sget, hk]
    | some v2 =>
      rw [hr] at hok
      simp only [] at hok
      cases hf : func v1 v2 with
      | none =>
        rw [hf] at hok
        simp only [] at hok
        cases hok
      | some v3 =>
        rw [hf] at hok
        simp only [] at hok
        have hdisj2 : ∀ k2, (sget rest2 k2).isSome →
            sget (sput dst k0 v3) k2 = none := by
          intro k2 hsome
          rw [sget_sput_ne dst k0 v3 k2 (hk0rest k2 hsome)]
          exact hdisj k2 (by
            have := hk0rest k2 hsome
            simpa [sget, this] using hsome)
        have hres := ih (sput dst k0 v3) hok hnd.2 hdisj2
        by_cases hk : k = k0
        · subst hk
          have h1 : sget rest2 k = none := by
            cases h2 : sget rest2 k with
            | none => rfl
            | some w => exact absurd rfl (hk0rest k (by rw [h2]; rfl))
          have h3 : sget dst k = none := hdisj k (by rw [hheadget]; rfl)
          rw [hres k, hheadget, hr, h1, h3, sget_sput_self]
          simp [hf]
        · rw [hres k, sget_sput_ne dst k0 v3 k hk]
          simp [sget, hk]

theorem joinLoop_err (func : Bytes → Bytes → Option Bytes) (right : Store)
    (rest dst : Store) (e : Bytes × Bytes)
    (herr : joinLoop func right rest dst = .error e)
    (hnd : (rest.map Prod.fst).Nodup) :
    ∃ k v1 v2, sget rest k = some v1 ∧ sget right k = some v2 ∧
      func v1 v2 = none ∧ e = (v1, v2) := by
  induction rest generalizing dst with
  | nil => cases herr
  | cons hd rest2 ih =>
    obtain ⟨k0, v1⟩ := hd
    simp only [List.map_cons, List.nodup_cons] at hnd
    have hk0rest : ∀ k2, (sget rest2 k2).isSome → k2 ≠ k0 := by
      intro k2 hsome hkeq
      subst hkeq
      have : sget rest2 k2 = none := sget_eq_none_of_not_mem rest2 k2 (by
        intro hmem
        exact hnd.1 (by simpa using hmem))
      rw [this] at hsome
      cases hsome
    simp only [joinLoop] at herr
    cases hr : sget right k0 with
    | none =>
      rw [hr] at herr
      simp only [] at herr
      obtain ⟨k, v1b, v2b, h1, h2, h3, h4⟩ := ih dst herr hnd.2
      refine ⟨k, v1b, v2b, ?_, h2, h3, h4⟩
      have hkne : k ≠ k0 := hk0rest k (by rw [h1]; rfl)
      simpa [sget, hkne] using h1
    | some v2 =>
      rw [hr] at herr
      simp only [] at herr
      cases hf : func v1 v2 with
      | none =>
        rw [hf] at herr
        simp only [] at herr
        refine ⟨k0, v1, v2, by simp [sget], hr, hf, ?_⟩
        simpa using herr.symm
      | some v3 =>
        rw [hf] at herr
        simp only [] at herr
        obtain ⟨k, v1b, v2b, h1, h2, h3, h4⟩ := ih (sput dst k0 v3) herr hnd.2
        refine ⟨k, v1b, v2b, ?_, h2, h3, h4⟩
        have hkne : k ≠ k0 := hk0rest k (by rw [h1]; rfl)
        simpa [sget, hkne] using h1

theorem joinLoop_success (func : Bytes → Bytes → Option Bytes) (right : Store)
    (rest dst out : Store) (hok : joinLoop func right rest dst = .ok out)
    (hnd : (rest.map Prod.fst).Nodup) :
    ∀ k v1 v2, sget rest k = some v1 → sget right k = some v2 →
      (func v1 v2).isSome := by
  induction rest generalizing dst with
  | nil => intro k v1 v2 h1; cases h1
  | cons hd rest2 ih =>
    obtain ⟨k0, v0⟩ := hd
    simp only [List.map_cons, List.nodup_cons] at hnd
    simp only [joinLoop] at hok
    intro k v1 v2 h1 h2
    by_cases hk : k = k0
    · subst hk
      have hv : v0 = v1 := by simpa [sget] using h1
      subst hv
      rw [h2] at hok
      simp only [] at hok
      cases hf : func v0 v2 with
      | none =>
        rw [hf] at hok
        simp only [] at hok
        cases hok
      | some v3 => rfl
    · have h1b : sget rest2 k = some v1 := by simpa [sget, hk] using h1
      cases hr : sget right k0 with
      | none =>
        rw [hr] at hok
        simp only [] at hok
        exact ih dst hok hnd.2 k v1 v2 h1b h2
      | some w =>
        rw [hr] at hok
        simp only [] at hok
        cases hf : func v0 w with
        | none =>
          rw [hf] at hok
          simp only [] at hok
          cases hok
        | some v3 =>
          rw [hf] at hok
          simp only [] at hok
          exact ih (sput dst k0 v3) hok hnd.2 k v1 v2 h1b h2

/-- Models `Session._submit_binary` plus the driver's result collection for a
binary operation: one worker task per aligned partition pair, results
gathered in partition order, the first observed failure re-raised. -/
def joinTable (func : Bytes → Bytes → Option Bytes) :
    List Store → List Store → Except (Bytes × Bytes) (List Store)
  | [], _ => .ok []
  | _ :: _, [] => .ok []
  | l :: ls, r :: rs =>
    match _do_join func l r with
    | .error e => .error e
    | .ok s =>
      match joinTable func ls rs with
      | .error e => .error e
      | .ok out => .ok (s :: out)

/-- Table-level lookup: the value of `k` in the first partition holding it. -/
def tlookup : List Store → Bytes → Option Bytes
  | [], _ => none
  | s :: rest, k => (sget s k).or (tlookup rest k)

/-- Bool: no key of `s` occurs in any store of `ts`. -/
def noKeyOverlapB (s : Store) (ts : List Store) : Bool :=
  s.all fun e => ts.all fun t => !(keyMemB e.1 t)

/-- Bool: the two partition lists are key-aligned — a key in left partition
`p` occurs in no right partition other than `p`, and conversely.  This is the
partition discipline produced by writing both tables with one partitioner. -/
def alignedB : List Store → List Store → Bool
  | [], _ => true
  | _, [] => true
  | l :: ls, r :: rs => noKeyOverlapB l rs && noKeyOverlapB r ls && alignedB ls rs

theorem option_or_isSome {α : Type} (a b : Option α) :
    (a.or b).isSome = (a.isSome || b.isSome) := by
  cases a <;> rfl

theorem mem_of_sget_isSome (s : Store) (k : Bytes) (h : (sget s k).isSome) :
    k ∈ s.map Prod.fst := by
  induction s with
  | nil => cases h
  | cons e rest ih =>
    obtain ⟨k0, v0⟩ := e
    by_cases hk : k = k0
    · simp [hk]
    · simp only [sget, if_neg hk] at h
      simp [ih h]

theorem tlookup_isSome_iff (ts : List Store) (k : Bytes) :
    (tlookup ts k).isSome ↔ ∃ s ∈ ts, (sget s k).isSome := by
  induction ts with
  | nil => simp [tlookup]
  | cons s rest ih =>
    simp [tlookup, option_or_isSome, ih]

theorem noKeyOverlap_none (s : Store) (ts : List Store)
    (h : noKeyOverlapB s ts = true) (k : Bytes) (hk : (sget s k).isSome) :
    ∀ t ∈ ts, sget t k = none := by
  intro t ht
  have hkmem := mem_of_sget_isSome s k hk
  simp only [List.mem_map] at hkmem
  obtain ⟨e, he, hek⟩ := hkmem
  simp only [noKeyOverlapB, List.all_eq_true, Bool.not_eq_true'] at h
  have := h e he t ht
  rw [hek] at this
  rw [← Bool.not_eq_true, keyMemB_iff] at this
  cases hres : sget t k with
  | none => rfl
  | some w => exact absurd (by rw [hres]; rfl) this

theorem getD_mem_of_lt {α : Type} (l : List α) (p : Nat) (d : α)
    (h : p < l.length) : l.getD p d ∈ l := by
  induction l generalizing p with
  | nil => cases h
  | cons a t ih =>
    cases p with
    | zero => exact List.mem_cons_self a t
    | succ q =>
      have : t.getD q d ∈ t := ih q (by simpa using h)
      exact List.mem_cons_of_mem a this

theorem _do_join_isSome (func : Bytes → Bytes → Option Bytes) (l r s : Store)
    (hok : _do_join func l r = .ok s) (hnd : (l.map Prod.fst).Nodup)
    (k : Bytes) :
    (sget s k).isSome ↔ ((sget l k).isSome ∧ (sget r k).isSome) := by
  have hres := joinLoop_ok func r l [] s hok hnd (fun k2 _ => rfl)
  have hsucc := joinLoop_success func r l [] s hok hnd
  rw [hres k]
  cases h1 : sget l k with
  | none => simp [sget, Option.or]
  | some v1 =>
    cases h2 : sget r k with
    | none => simp [sget, Option.or]
    | some v2 =>
      have hsome := hsucc k v1 v2 h1 h2
      simp [sget, Option.or_none, hsome]

theorem joinTable_nth (func : Bytes → Bytes → Option Bytes) (L : List Store) :
    ∀ (R out : List Store), joinTable func L R = .ok out → L.length = R.length →
    ∀ p, p < L.length →
      _do_join func (L.getD p []) (R.getD p []) = .ok (out.getD p []) := by
  induction L with
  | nil => intro R out _ _ p hp; exact absurd hp (Nat.not_lt_zero p)
  | cons l ls ih =>
    intro R out hok hlen p hp
    cases R with
    | nil => simp at hlen
    | cons r rs =>
      simp only [joinTable] at hok
      cases hj : _do_join func l r with
      | error e => rw [hj] at hok; simp only [] at hok; cases hok
      | ok s =>
        rw [hj] at hok
        simp only [] at hok
        cases hrec : joinTable func ls rs with
        | error e => rw [hrec] at hok; simp only [] at hok; cases hok
        | ok os =>
          rw [hrec] at hok
          simp only [Except.ok.injEq] at hok
          subst hok
          cases p with
          | zero => simpa using hj
          | succ q =>
            have hlt : q < ls.length := by simpa using hp
            have := ih rs os hrec (by simpa using hlen) q hlt
            simpa using this

theorem joinTable_err_nth (func : Bytes → Bytes → Option Bytes) (L : List Store) :
    ∀ (R : List Store) (e : Bytes × Bytes), joinTable func L R = .error e →
    L.length = R.length →
    ∃ p, p < L.length ∧ _do_join func (L.getD p []) (R.getD p []) = .error e := by
  induction L with
  | nil =>
    intro R e herr _
    cases R with
    | nil => cases herr
    | cons r rs => cases herr
  | cons l ls ih =>
    intro R e herr hlen
    cases R with
    | nil => simp at hlen
    | cons r rs =>
      simp only [joinTable] at herr
      cases hj : _do_join func l r with
      | error e2 =>
        rw [hj] at herr
        simp only [Except.error.injEq] at herr
        subst herr
        exact ⟨0, Nat.succ_pos _, by simpa using hj⟩
      | ok s =>
        rw [hj] at herr
        simp only [] at herr
        cases hrec : joinTable func ls rs with
        | error e2 =>
          rw [hrec] at herr
          simp only [Except.error.injEq] at herr
          subst herr
          obtain ⟨p, hp, hres⟩ := ih rs e2 hrec (by simpa using hlen)
          exact ⟨p + 1, by simpa using hp, by simpa using hres⟩
        | ok os =>
          rw [hrec] at herr
          simp only [] at herr
          cases herr

theorem joinTable_isSome (func : Bytes → Bytes → Option Bytes) (L : List Store) :
    ∀ (R out : List Store), joinTable func L R = .ok out →
    L.length = R.length →
    (∀ s ∈ L, (s.map Prod.fst).Nodup) →
    alignedB L R = true →
    ∀ k, (tlookup out k).isSome ↔
      ((tlookup L k).isSome ∧ (tlookup R k).isSome) := by
  induction L with
  | nil =>
    intro R out hok hlen hnd hal k
    cases R with
    | nil =>
      simp only [joinTable, Except.ok.injEq] at hok
      subst hok
      simp [tlookup]
    | cons r rs => simp at hlen
  | cons l ls ih =>
    intro R out hok hlen hnd hal k
    cases R with
    | nil => simp at hlen
    | cons r rs =>
      simp only [joinTable] at hok
      cases hj : _do_join func l r with
      | error e => rw [hj] at hok; simp only [] at hok; cases hok
      | ok s =>
        rw [hj] at hok
        simp only [] at hok
        cases hrec : joinTable func ls rs with
        | error e => rw [hrec] at hok; simp only [] at hok; cases hok
        | ok os =>
          rw [hrec] at hok
          simp only [Except.ok.injEq] at hok
          subst hok
          have hndl : (l.map Prod.fst).Nodup := hnd l (List.mem_cons_self _ _)
          have hndls : ∀ s2 ∈ ls, (s2.map Prod.fst).Nodup := fun s2 h2 =>
            hnd s2 (List.mem_cons_of_mem _ h2)
          simp only [alignedB, Bool.and_eq_true] at hal
          obtain ⟨⟨hal1, hal2⟩, hal3⟩ := hal
          have hlen2 : ls.length = rs.length := by simpa using hlen
          have hhead := _do_join_isSome func l r s hj hndl k
          have htail := ih rs os hrec hlen2 hndls hal3 k
          have hex1 : (sget l k).isSome → (tlookup rs k).isSome → False := by
            intro hA hD
            rw [tlookup_isSome_iff] at hD
            obtain ⟨t, ht, hts⟩ := hD
            have := noKeyOverlap_none l rs hal1 k hA t ht
            rw [this] at hts
            cases hts
          have hex2 : (sget r k).isSome → (tlookup ls k).isSome → False := by
            intro hB hC
            rw [tlookup_isSome_iff] at hC
            obtain ⟨t, ht, hts⟩ := hC
            have := noKeyOverlap_none r ls hal2 k hB t ht
            rw [this] at hts
            cases hts
          show ((sget s k).or (tlookup os k)).isSome = true ↔ _
          rw [option_or_isSome, Bool.or_eq_true]
          show _ ↔ ((sget l k).or (tlookup ls k)).isSome = true ∧
            ((sget r k).or (tlookup rs k)).isSome = true
          rw [option_or_isSome, option_or_isSome, Bool.or_eq_true, Bool.or_eq_true]
          constructor
          · intro h
            rcases h with h | h
            · rw [hhead] at h
              exact ⟨Or.inl h.1, Or.inl h.2⟩
            · rw [htail] at h
              exact ⟨Or.inr h.1, Or.inr h.2⟩
          · rintro ⟨hA | hC, hB | hD⟩
            · exact Or.inl (hhead.2 ⟨hA, hB⟩)
            · exact (hex1 hA hD).elim
            · exact (hex2 hB hC).elim
            · exact Or.inr (htail.2 ⟨hC, hD⟩)

/-- C6: for partition-aligned tables, `join(merge_op)` produces each output
partition from the corresponding input partitions; in a successful run the
value of `k` in output partition `p` is `merge_op(left value, right value)`
when both sides hold `k` (and absent otherwise), the output holds exactly the
keys present in both tables, and a failing `merge_op` aborts the call with
the error carrying both raw byte payloads of some shared key. -/
theorem join_spec (func : Bytes → Bytes → Option Bytes) (L R : List Store)
    (hlen : L.length = R.length)
    (hnd : ∀ s ∈ L, (s.map Prod.fst).Nodup)
    (hal : alignedB L R = true) :
    (∀ out, joinTable func L R = .ok out →
      (∀ p, p < L.length →
        ∀ k, sget (out.getD p []) k =
          (sget (L.getD p []) k).bind fun v1 =>
            (sget (R.getD p []) k).bind fun v2 => func v1 v2) ∧
      (∀ k, (tlookup out k).isSome ↔
        ((tlookup L k).isSome ∧ (tlookup R k).isSome))) ∧
    (∀ e, joinTable func L R = .error e →
      ∃ p, p < L.length ∧ ∃ k v1 v2, sget (L.getD p []) k = some v1 ∧
        sget (R.getD p []) k = some v2 ∧ func v1 v2 = none ∧ e = (v1, v2)) := by
  constructor
  · intro out hok
    constructor
    · intro p hp k
      have hpart := joinTable_nth func L R out hok hlen p hp
      have hndp : ((L.getD p []).map Prod.fst).Nodup :=
        hnd _ (getD_mem_of_lt L p [] hp)
      have hres := joinLoop_ok func (R.getD p []) (L.getD p []) []
        (out.getD p []) hpart hndp (fun k2 _ => rfl)
      rw [hres k]
      show Option.or _ (sget [] k) = _
      rw [show sget [] k = none from rfl, Option.or_none]
    · exact joinTable_isSome func L R out hok hlen hnd hal
  · intro e herr
    obtain ⟨p, hp, hperr⟩ := joinTable_err_nth func L R e herr hlen
    have hndp : ((L.getD p []).map Prod.fst).Nodup :=
      hnd _ (getD_mem_of_lt L p [] hp)
    obtain ⟨k, v1, v2, h1, h2, h3, h4⟩ :=
      joinLoop_err func (R.getD p []) (L.getD p []) [] e hperr hndp
    exact ⟨p, hp, k, v1, v2, h1, h2, h3, h4⟩

/-- Witness for `join_spec`: one aligned partition pair; key `[2]` is shared,
its merged value is looked up through the proved equation. -/
theorem join_spec_witness :
    sget (List.getD [[([2], [20, 2])]] 0 []) [2] =
      (sget (List.getD [[([1], [10]), ([2], [20])]] 0 []) [2]).bind fun v1 =>
        (sget (List.getD [[([2], [2])]] 0 []) [2]).bind fun v2 =>
          some (v1 ++ v2) :=
  ((join_spec (fun a b => some (a ++ b)) [[([1], [10]), ([2], [20])]]
      [[([2], [2])]] (by decide) (by decide) (by decide)).1
    [[([2], [20, 2])]] rfl).1 0 (by decide) [2]

/-! ## Claim C7: `union` -/

/-- The left pass of `_do_union`: write every left key; on a key the right
partition also holds, write `merge_op(left, right)` instead (an exception from
`merge_op` propagates, unwrapped). -/
def unionLeftLoop (func : Bytes → Bytes → Option Bytes) (right : Store) :
    Store → Store → Except PyErr Store
  | [], dst => .ok dst
  | (k, lv) :: rest, dst =>
    match sget right k with
    | none => unionLeftLoop func right rest (sput dst k lv)
    | some rv =>
      match func lv rv with
      | none => .error .userError
      | some fv => unionLeftLoop func right rest (sput dst k fv)

/-- The right pass of `_do_union`: copy in every right key the destination
does not hold yet. -/
def unionRightLoop : Store → Store → Store
  | [], dst => dst
  | (k, rv) :: rest, dst =>
    match sget dst k with
    | none => unionRightLoop rest (sput dst k rv)
    | some _ => unionRightLoop rest dst

/-- Models `_do_union` on one aligned partition pair. -/
def _do_union (func : Bytes → Bytes → Option Bytes) (left right : Store) :
    Except PyErr Store :=
  match unionLeftLoop func right left [] with
  | .error e => .error e
  | .ok dst => .ok (unionRightLoop right dst)

/-- The union value for one key, given the two sides' lookups: left value if
only left holds it, right value if only right holds it, the merge on
overlap. -/
def unionPoint (func : Bytes → Bytes → Option Bytes) :
    Option Bytes → Option Bytes → Option Bytes
  | some lv, some rv => func lv rv
  | some lv, none => some lv
  | none, ro => ro

theorem unionRightLoop_get (rs : Store) :
    ∀ (dst : Store) (k : Bytes),
      sget (unionRightLoop rs dst) k = (sget dst k).or (sget rs k) := by
  induction rs with
  | nil => intro dst k; simp [unionRightLoop, sget]
  | cons e rest ih =>
    obtain ⟨k0, rv⟩ := e
    intro dst k
    simp only [unionRightLoop]
    cases hd : sget dst k0 with
    | none =>
      simp only []
      rw [ih (sput dst k0 rv) k]
      by_cases hk : k = k0
      · subst hk
        rw [sget_sput_self, hd]
        simp [sget, Option.or]
      · rw [sget_sput_ne dst k0 rv k hk]
        simp [sget, hk]
    | some w =>
      simp only []
      rw [ih dst k]
      by_cases hk : k = k0
      · subst hk
        rw [hd]
        simp [sget, Option.or]
      · simp [sget, hk]

theorem unionLeftLoop_ok (func : Bytes → Bytes → Option Bytes) (right : Store)
    (rest dst out : Store) (hok : unionLeftLoop func right rest dst = .ok out)
    (hnd : (rest.map Prod.fst).Nodup)
    (hdisj : ∀ k, (sget rest k).isSome → sget dst k = none) :
    ∀ k, sget out k =
      ((sget rest k).bind fun lv =>
        match sget right k with
        | none => some lv
        | some rv => func lv rv).or (sget dst k) := by
  induction rest generalizing dst with
  | nil =>
    intro k
    simp only [unionLeftLoop, Except.ok.injEq] at hok
    subst hok
    simp [sget]
  | cons e rest2 ih =>
    obtain ⟨k0, lv⟩ := e
    simp only [List.map_cons, List.nodup_cons] at hnd
    have hk0rest : ∀ k2, (sget rest2 k2).isSome → k2 ≠ k0 := by
      intro k2 hsome hkeq
      subst hkeq
      have : sget rest2 k2 = none := sget_eq_none_of_not_mem rest2 k2 (by
        intro hmem
        exact hnd.1 (by simpa using hmem))
      rw [this] at hsome
      cases hsome
    have hheadget : sget ((k0, lv) :: rest2) k0 = some lv := by simp [sget]
    simp only [unionLeftLoop] at hok
    intro k
    have hstep : ∀ w, unionLeftLoop func right rest2 (sput dst k0 w) = .ok out →
        sget out k =
          ((sget ((k0, lv) :: rest2) k).bind fun lv2 =>
            match sget right k with
            | none => some lv2
            | some rv => func lv2 rv).or (sget dst k) ∨
        (k = k0 ∧ sget out k = some w) := by
      intro w hok2
      have hdisj2 : ∀ k2, (sget rest2 k2).isSome →
          sget (sput dst k0 w) k2 = none := by
        intro k2 hsome
        rw [sget_sput_ne dst k0 w k2 (hk0rest k2 hsome)]
        exact hdisj k2 (by
          have := hk0rest k2 hsome
          simpa [sget, this] using hsome)
      have hres := ih (sput dst k0 w) hok2 hnd.2 hdisj2
      by_cases hk : k = k0
      · subst hk
        right
        refine ⟨rfl, ?_⟩
        have h1 : sget rest2 k = none := by
          cases h2 : sget rest2 k with
          | none => rfl
          | some u => exact absurd rfl (hk0rest k (by rw [h2]; rfl))
        rw [hres k, h1, sget_sput_self]
        rfl
      · left
        rw [hres k, sget_sput_ne dst k0 w k hk]
        simp [sget, hk]
    cases hr : sget right k0 with
    | none =>
      rw [hr] at hok
      simp only [] at hok
      rcases hstep lv hok with h | ⟨hk, hv⟩
      · exact h
      · subst hk
        rw [hv, hheadget, hr]
        have h3 : sget dst k = none := hdisj k (by rw [hheadget]; rfl)
        rw [h3]
        rfl
    | some rv =>
      rw [hr] at hok
      simp only [] at hok
      cases hf : func lv rv with
      | none =>
        rw [hf] at hok
        simp only [] at hok
        cases hok
      | some fv =>
        rw [hf] at hok
        simp only [] at hok
        rcases hstep fv hok with h | ⟨hk, hv⟩
        · exact h
        · subst hk
          have h3 : sget dst k = none := hdisj k (by rw [hheadget]; rfl)
          rw [hv, hheadget, hr, h3]
          simp [hf, Option.or]

theorem unionLeftLoop_success (func : Bytes → Bytes → Option Bytes)
    (right : Store) (rest dst out : Store)
    (hok : unionLeftLoop func right rest dst = .ok out)
    (hnd : (rest.map Prod.fst).Nodup) :
    ∀ k lv rv, sget rest k = some lv → sget right k = some rv →
      (func lv rv).isSome := by
  induction rest generalizing dst with
  | nil => intro k lv rv h1; cases h1
  | cons hd rest2 ih =>
    obtain ⟨k0, v0⟩ := hd
    simp only [List.map_cons, List.nodup_cons] at hnd
    simp only [unionLeftLoop] at hok
    intro k lv rv h1 h2
    by_cases hk : k = k0
    · subst hk
      have hv : v0 = lv := by simpa [sget] using h1
      subst hv
      rw [h2] at hok
      simp only [] at hok
      cases hf : func v0 rv with
      | none =>
        rw [hf] at hok
        simp only [] at hok
        cases hok
      | some fv => rfl
    · have h1b : sget rest2 k = some lv := by simpa [sget, hk] using h1
      cases hr : sget right k0 with
      | none =>
        rw [hr] at hok
        simp only [] at hok
        exact ih (sput dst k0 v0) hok hnd.2 k lv rv h1b h2
      | some w =>
        rw [hr] at hok
        simp only [] at hok
        cases hf : func v0 w with
        | none =>
          rw [hf] at hok
          simp only [] at hok
          cases hok
        | some fv =>
          rw [hf] at hok
          simp only [] at hok
          exact ih (sput dst k0 fv) hok hnd.2 k lv rv h1b h2

theorem _do_union_point (func : Bytes → Bytes → Option Bytes) (l r s : Store)
    (hok : _do_union func l r = .ok s) (hnd : (l.map Prod.fst).Nodup)
    (k : Bytes) :
    sget s k = unionPoint func (sget l k) (sget r k) := by
  simp only [_do_union] at hok
  cases hleft : unionLeftLoop func r l [] with
  | error e => rw [hleft] at hok; simp only [] at hok; cases hok
  | ok dst =>
    rw [hleft] at hok
    simp only [Except.ok.injEq] at hok
    subst hok
    have hdst := unionLeftLoop_ok func r l [] dst hleft hnd (fun k2 _ => rfl) k
    have hsucc := unionLeftLoop_success func r l [] dst hleft hnd
    rw [unionRightLoop_get r dst k, hdst]
    show (Option.or (Option.or _ (sget [] k)) _) = _
    rw [show sget [] k = none from rfl, Option.or_none]
    cases h1 : sget l k with
    | none => simp [unionPoint, Option.or]
    | some lv =>
      cases h2 : sget r k with
      | none => simp [unionPoint, Option.or]
      | some rv =>
        have := hsucc k lv rv h1 h2
        cases hf : func lv rv with
        | none => rw [hf] at this; cases this
        | some fv => simp [unionPoint, hf, Option.or]

theorem _do_union_isSome (func : Bytes → Bytes → Option Bytes) (l r s : Store)
    (hok : _do_union func l r = .ok s) (hnd : (l.map Prod.fst).Nodup)
    (k : Bytes) :
    (sget s k).isSome ↔ ((sget l k).isSome ∨ (sget r k).isSome) := by
  rw [_do_union_point func l r s hok hnd k]
  cases h1 : sget l k with
  | none => simp [unionPoint]
  | some lv =>
    cases h2 : sget r k with
    | none => simp [unionPoint]
    | some rv =>
      simp only [unionPoint]
      constructor
      · intro _; exact Or.inl rfl
      · intro _
        simp only [_do_union] at hok
        cases hleft : unionLeftLoop func r l [] with
        | error e => rw [hleft] at hok; simp only [] at hok; cases hok
        | ok dst =>
          exact unionLeftLoop_success func r l [] dst hleft hnd k lv rv h1 h2

theorem _do_union_success (func : Bytes → Bytes → Option Bytes) (l r s : Store)
    (hok : _do_union func l r = .ok s) (hnd : (l.map Prod.fst).Nodup) :
    ∀ k lv rv, sget l k = some lv → sget r k = some rv →
      (func lv rv).isSome := by
  simp only [_do_union] at hok
  cases hleft : unionLeftLoop func r l [] with
  | error e => rw [hleft] at hok; simp only [] at hok; cases hok
  | ok dst => exact unionLeftLoop_success func r l [] dst hleft hnd

/-- Driver fan-out for `union`, as for `join`: one task per aligned partition
pair, results in partition order. -/
def unionTable (func : Bytes → Bytes → Option Bytes) :
    List Store → List Store → Except PyErr (List Store)
  | [], _ => .ok []
  | _ :: _, [] => .ok []
  | l :: ls, r :: rs =>
    match _do_union func l r with
    | .error e => .error e
    | .ok s =>
      match unionTable func ls rs with
      | .error e => .error e
      | .ok out => .ok (s :: out)

theorem unionTable_cons (func : Bytes → Bytes → Option Bytes) (l r : Store)
    (ls rs out : List Store)
    (hok : unionTable func (l :: ls) (r :: rs) = .ok out) :
    ∃ s os, _do_union func l r = .ok s ∧ unionTable func ls rs = .ok os ∧
      out = s :: os := by
  simp only [unionTable] at hok
  cases hj : _do_union func l r with
  | error e => rw [hj] at hok; simp only [] at hok; cases hok
  | ok s =>
    rw [hj] at hok
    simp only [] at hok
    cases hrec : unionTable func ls rs with
    | error e => rw [hrec] at hok; simp only [] at hok; cases hok
    | ok os =>
      rw [hrec] at hok
      simp only [Except.ok.injEq] at hok
      exact ⟨s, os, rfl, rfl, hok.symm⟩

theorem unionTable_tlookup (func : Bytes → Bytes → Option Bytes)
    (L : List Store) :
    ∀ (R out : List Store), unionTable func L R = .ok out →
    L.length = R.length →
    (∀ s ∈ L, (s.map Prod.fst).Nodup) →
    alignedB L R = true →
    ∀ k, tlookup out k = unionPoint func (tlookup L k) (tlookup R k) := by
  induction L with
  | nil =>
    intro R out hok hlen hnd hal k
    cases R with
    | nil =>
      simp only [unionTable, Except.ok.injEq] at hok
      subst hok
      simp [tlookup, unionPoint]
    | cons r rs => simp at hlen
  | cons l ls ih =>
    intro R out hok hlen hnd hal k
    cases R with
    | nil => simp at hlen
    | cons r rs =>
      obtain ⟨s, os, hj, hrec, hout⟩ := unionTable_cons func l r ls rs out hok
      subst hout
      have hndl : (l.map Prod.fst).Nodup := hnd l (List.mem_cons_self _ _)
      have hndls : ∀ s2 ∈ ls, (s2.map Prod.fst).Nodup := fun s2 h2 =>
        hnd s2 (List.mem_cons_of_mem _ h2)
      simp only [alignedB, Bool.and_eq_true] at hal
      obtain ⟨⟨hal1, hal2⟩, hal3⟩ := hal
      have hlen2 : ls.length = rs.length := by simpa using hlen
      have hhead := _do_union_point func l r s hj hndl k
      have hsucc := _do_union_success func l r s hj hndl
      have htail := ih rs os hrec hlen2 hndls hal3 k
      show (sget s k).or (tlookup os k) = unionPoint func
        ((sget l k).or (tlookup ls k)) ((sget r k).or (tlookup rs k))
      cases h1 : sget l k with
      | some lv =>
        cases h2 : sget r k with
        | some rv =>
          have hfv := hsucc k lv rv h1 h2
          cases hf : func lv rv with
          | none => rw [hf] at hfv; cases hfv
          | some fv =>
            rw [hhead, h1, h2]
            simp [unionPoint, hf, Option.or]
        | none =>
          have hrsnone : tlookup rs k = none := by
            cases h3 : tlookup rs k with
            | none => rfl
            | some w =>
              exfalso
              have hsome : (tlookup rs k).isSome := by rw [h3]; rfl
              rw [tlookup_isSome_iff] at hsome
              obtain ⟨t, ht, hts⟩ := hsome
              have := noKeyOverlap_none l rs hal1 k (by rw [h1]; rfl) t ht
              rw [this] at hts
              cases hts
          rw [hhead, h1, h2, hrsnone]
          simp [unionPoint, Option.or]
      | none =>
        cases h2 : sget r k with
        | some rv =>
          have hlsnone : tlookup ls k = none := by
            cases h3 : tlookup ls k with
            | none => rfl
            | some w =>
              exfalso
              have hsome : (tlookup ls k).isSome := by rw [h3]; rfl
              rw [tlookup_isSome_iff] at hsome
              obtain ⟨t, ht, hts⟩ := hsome
              have := noKeyOverlap_none r ls hal2 k (by rw [h2]; rfl) t ht
              rw [this] at hts
              cases hts
          rw [hhead, h1, h2, hlsnone]
          simp [unionPoint, Option.or]
        | none =>
          rw [hhead, h1, h2]
          simp only [unionPoint, Option.or]
          exact htail

theorem unionTable_isSome (func : Bytes → Bytes → Option Bytes)
    (L : List Store) :
    ∀ (R out : List Store), unionTable func L R = .ok out →
    L.length = R.length →
    (∀ s ∈ L, (s.map Prod.fst).Nodup) →
    ∀ k, (tlookup out k).isSome ↔
      ((tlookup L k).isSome ∨ (tlookup R k).isSome) := by
  induction L with
  | nil =>
    intro R out hok hlen hnd k
    cases R with
    | nil =>
      simp only [unionTable, Except.ok.injEq] at hok
      subst hok
      simp [tlookup]
    | cons r rs => simp at hlen
  | cons l ls ih =>
    intro R out hok hlen hnd k
    cases R with
    | nil => simp at hlen
    | cons r rs =>
      obtain ⟨s, os, hj, hrec, hout⟩ := unionTable_cons func l r ls rs out hok
      subst hout
      have hndl : (l.map Prod.fst).Nodup := hnd l (List.mem_cons_self _ _)
      have hndls : ∀ s2 ∈ ls, (s2.map Prod.fst).Nodup := fun s2 h2 =>
        hnd s2 (List.mem_cons_of_mem _ h2)
      have hlen2 : ls.length = rs.length := by simpa using hlen
      have hhead := _do_union_isSome func l r s hj hndl k
      have htail := ih rs os hrec hlen2 hndls k
      show ((sget s k).or (tlookup os k)).isSome = true ↔ _
      rw [option_or_isSome, Bool.or_eq_true]
      show _ ↔ ((sget l k).or (tlookup ls k)).isSome = true ∨
        ((sget r k).or (tlookup rs k)).isSome = true
      rw [option_or_isSome, option_or_isSome, Bool.or_eq_true, Bool.or_eq_true]
      constructor
      · intro h
        rcases h with h | h
        · rcases hhead.1 h with h2 | h2
          · exact Or.inl (Or.inl h2)
          · exact Or.inr (Or.inl h2)
        · rcases htail.1 h with h2 | h2
          · exact Or.inl (Or.inr h2)
          · exact Or.inr (Or.inr h2)
      · intro h
        rcases h with (h | h) | (h | h)
        · exact Or.inl (hhead.2 (Or.inl h))
        · exact Or.inr (htail.2 (Or.inl h))
        · exact Or.inl (hhead.2 (Or.inr h))
        · exact Or.inr (htail.2 (Or.inr h))

theorem unionPoint_default (a b : Option Bytes) :
    unionPoint (fun lv _ => some lv) a b = a.or b := by
  cases a <;> cases b <;> rfl

/-- C7: for partition-aligned tables, a successful `union(merge_op)` holds
exactly the union of the two key sets; a key only in the left table keeps the
left value, a key only in the right table keeps the right value, and a shared
key maps to `merge_op(left, right)` — so the default `merge_op` makes the
left value win on overlap. -/
theorem union_spec (func : Bytes → Bytes → Option Bytes) (L R : List Store)
    (hlen : L.length = R.length)
    (hnd : ∀ s ∈ L, (s.map Prod.fst).Nodup)
    (hal : alignedB L R = true) :
    (∀ out, unionTable func L R = .ok out →
      (∀ k, tlookup out k = unionPoint func (tlookup L k) (tlookup R k)) ∧
      (∀ k, (tlookup out k).isSome ↔
        ((tlookup L k).isSome ∨ (tlookup R k).isSome))) ∧
    (∀ out2, unionTable (fun lv _ => some lv) L R = .ok out2 →
      ∀ k, tlookup out2 k = (tlookup L k).or (tlookup R k)) := by
  constructor
  · intro out hok
    exact ⟨unionTable_tlookup func L R out hok hlen hnd hal,
      unionTable_isSome func L R out hok hlen hnd⟩
  · intro out2 hok k
    rw [unionTable_tlookup (fun lv _ => some lv) L R out2 hok hlen hnd hal k,
      unionPoint_default]

/-- Witness for `union_spec` with the default merge function: the overlap key
`[2]` keeps the left value. -/
theorem union_spec_witness :
    tlookup [[([1], [10]), ([2], [20]), ([3], [30])]] [2] =
      Option.or (tlookup [[([1], [10]), ([2], [20])]] [2])
        (tlookup [[([2], [2]), ([3], [30])]] [2]) :=
  (union_spec (fun lv _ => some lv) [[([1], [10]), ([2], [20])]]
      [[([2], [2]), ([3], [30])]] (by decide) (by decide) (by decide)).2
    [[([1], [10]), ([2], [20]), ([3], [30])]] rfl [2]

/-! ## Claim C4: `Table.collect` (heap merge of partition cursors) -/

theorem bytesLt_irrefl (a : Bytes) : bytesLt a a = false := by
  induction a with
  | nil => rfl
  | cons x xs ih => simp [bytesLt, ih]

theorem bytesLt_asymm (a : Bytes) : ∀ b, bytesLt a b = true → bytesLt b a = false := by
  induction a with
  | nil =>
    intro b h
    cases b with
    | nil => cases h
    | cons y ys => rfl
  | cons x xs ih =>
    intro b h
    cases b with
    | nil => cases h
    | cons y ys =>
      simp only [bytesLt] at h ⊢
      by_cases h1 : x < y
      · simp [Nat.lt_asymm h1, h1]
      · by_cases h2 : y < x
        · rw [if_neg h1, if_pos h2] at h
          cases h
        · rw [if_neg h1, if_neg h2] at h
          simp [h1, h2, ih ys h]

theorem bytesLt_trans (a : Bytes) :
    ∀ b c, bytesLt a b = true → bytesLt b c = true → bytesLt a c = true := by
  induction a with
  | nil =>
    intro b c h1 h2
    cases b with
    | nil => cases h1
    | cons y ys =>
      cases c with
      | nil => cases h2
      | cons z zs => rfl
  | cons x xs ih =>
    intro b c h1 h2
    cases b with
    | nil => cases h1
    | cons y ys =>
      cases c with
      | nil => cases h2
      | cons z zs =>
        simp only [bytesLt] at h1 h2 ⊢
        by_cases hxy : x < y
        · by_cases hyz : y < z
          · simp [Nat.lt_trans hxy hyz]
          · by_cases hzy : z < y
            · rw [if_neg hyz, if_pos hzy] at h2
              cases h2
            · have hyzeq : y = z := by omega
              subst hyzeq
              simp [hxy]
        · by_cases hyx : y < x
          · rw [if_neg hxy, if_pos hyx] at h1
            cases h1
          · have hxyeq : x = y := by omega
            subst hxyeq
            rw [if_neg hxy, if_neg hyx] at h1
            by_cases hxz : x < z
            · simp [hxz]
            · by_cases hzx : z < x
              · rw [if_neg hxz, if_pos hzx] at h2
                cases h2
              · rw [if_neg hxz, if_neg hzx] at h2
                simp [hxz, hzx, ih ys zs h1 h2]

theorem bytesLt_conn (a : Bytes) :
    ∀ b, bytesLt a b = false → bytesLt b a = false → a = b := by
  induction a with
  | nil =>
    intro b h1 _
    cases b with
    | nil => rfl
    | cons y ys => cases h1
  | cons x xs ih =>
    intro b h1 h2
    cases b with
    | nil => cases h2
    | cons y ys =>
      simp only [bytesLt] at h1 h2
      by_cases hxy : x < y
      · rw [if_pos hxy] at h1
        cases h1
      · by_cases hyx : y < x
        · rw [if_pos hyx] at h2
          cases h2
        · have hxyeq : x = y := by omega
          subst hxyeq
          rw [if_neg hxy, if_neg hyx] at h1
          rw [if_neg hyx, if_neg hxy] at h2
          rw [ih ys h1 h2]

/-- A live cursor in `Table.collect`'s heap: the `enumerate` index `_id`, the
current item, and the remaining items of that partition in cursor order. -/
structure MergeEntry where
  pid : Nat
  key : Bytes
  val : Bytes
  rest : List (Bytes × Bytes)
  deriving DecidableEq, Repr

/-- The ordering of the `[key, value, _id, it]` heap entries of `collect`:
Python list comparison, lexicographic on (key, value, _id); the cursor in slot
3 is never compared because the `_id` values are distinct. -/
def entryLt (a b : MergeEntry) : Bool :=
  if bytesLt a.key b.key then true
  else if bytesLt b.key a.key then false
  else if bytesLt a.val b.val then true
  else if bytesLt b.val a.val then false
  else decide (a.pid < b.pid)

theorem entryLt_irrefl (a : MergeEntry) : entryLt a a = false := by
  simp [entryLt, bytesLt_irrefl]

theorem entryLt_of_keyLt (a b : MergeEntry) (h : bytesLt a.key b.key = true) :
    entryLt a b = true := by
  simp [entryLt, h]

theorem keyLt_false_of_entryLt_false (a b : MergeEntry)
    (h : entryLt a b = false) : bytesLt a.key b.key = false := by
  by_cases hk : bytesLt a.key b.key = true
  · rw [entryLt_of_keyLt a b hk] at h
    cases h
  · exact Bool.not_eq_true _ ▸ (by simpa using hk)

theorem entryLt_asymm (a b : MergeEntry) (h : entryLt a b = true) :
    entryLt b a = false := by
  simp only [entryLt] at h ⊢
  by_cases h1 : bytesLt a.key b.key = true
  · simp [h1, bytesLt_asymm _ _ h1]
  · rw [Bool.not_eq_true] at h1
    rw [if_neg (by simp [h1])] at h
    by_cases h2 : bytesLt b.key a.key = true
    · rw [if_pos h2] at h
      cases h
    · rw [Bool.not_eq_true] at h2
      rw [if_neg (by simp [h2])] at h
      rw [if_neg (by simp [h2]), if_neg (by simp [h1])]
      by_cases h3 : bytesLt a.val b.val = true
      · simp [h3, bytesLt_asymm _ _ h3]
      · rw [Bool.not_eq_true] at h3
        rw [if_neg (by simp [h3])] at h
        by_cases h4 : bytesLt b.val a.val = true
        · rw [if_pos h4] at h
          cases h
        · rw [Bool.not_eq_true] at h4
          rw [if_neg (by simp [h4])] at h
          rw [if_neg (by simp [h4]), if_neg (by simp [h3])]
          simp only [decide_eq_true_eq] at h
          simp
          omega

/-- The value/partition-id tail of the heap comparison, used when the keys
tie. -/
def entryLtVP (a b : MergeEntry) : Bool :=
  if bytesLt a.val b.val then true
  else if bytesLt b.val a.val then false
  else decide (a.pid < b.pid)

theorem entryLt_false_of_keyGt (a b : MergeEntry)
    (h : bytesLt b.key a.key = true) : entryLt a b = false := by
  simp [entryLt, h, bytesLt_asymm _ _ h]

theorem entryLt_keyeq (a b : MergeEntry) (hk : a.key = b.key) :
    entryLt a b = entryLtVP a b := by
  simp [entryLt, entryLtVP, hk, bytesLt_irrefl]

theorem entryLtVP_trans (a b c : MergeEntry) (h1 : entryLtVP a b = true)
    (h2 : entryLtVP b c = true) : entryLtVP a c = true := by
  by_cases v1 : bytesLt a.val b.val = true
  · by_cases v2 : bytesLt b.val c.val = true
    · simp [entryLtVP, bytesLt_trans _ _ _ v1 v2]
    · rw [Bool.not_eq_true] at v2
      by_cases v3 : bytesLt c.val b.val = true
      · rw [show entryLtVP b c = false from by
          simp [entryLtVP, v3, bytesLt_asymm _ _ v3]] at h2
        cases h2
      · rw [Bool.not_eq_true] at v3
        have he : b.val = c.val := bytesLt_conn _ _ v2 v3
        have : bytesLt a.val c.val = true := by rw [← he]; exact v1
        simp [entryLtVP, this]
  · rw [Bool.not_eq_true] at v1
    by_cases v1r : bytesLt b.val a.val = true
    · rw [show entryLtVP a b = false from by
        simp [entryLtVP, v1r, bytesLt_asymm _ _ v1r]] at h1
      cases h1
    · rw [Bool.not_eq_true] at v1r
      have heab : a.val = b.val := bytesLt_conn _ _ v1 v1r
      by_cases v2 : bytesLt b.val c.val = true
      · have : bytesLt a.val c.val = true := by rw [heab]; exact v2
        simp [entryLtVP, this]
      · rw [Bool.not_eq_true] at v2
        by_cases v2r : bytesLt c.val b.val = true
        · rw [show entryLtVP b c = false from by
            simp [entryLtVP, v2r, bytesLt_asymm _ _ v2r]] at h2
          cases h2
        · rw [Bool.not_eq_true] at v2r
          have hebc : b.val = c.val := bytesLt_conn _ _ v2 v2r
          have hp1 : a.pid < b.pid := by
            rw [show entryLtVP a b = decide (a.pid < b.pid) from by
              simp [entryLtVP, heab, bytesLt_irrefl]] at h1
            simpa using h1
          have hp2 : b.pid < c.pid := by
            rw [show entryLtVP b c = decide (b.pid < c.pid) from by
              simp [entryLtVP, hebc, bytesLt_irrefl]] at h2
            simpa using h2
          rw [show entryLtVP a c = decide (a.pid < c.pid) from by
            simp [entryLtVP, heab.trans hebc, bytesLt_irrefl]]
          simp only [decide_eq_true_eq]
          omega

theorem entryLt_trans (a b c : MergeEntry) (h1 : entryLt a b = true)
    (h2 : entryLt b c = true) : entryLt a c = true := by
  by_cases k1 : bytesLt a.key b.key = true
  · by_cases k2 : bytesLt b.key c.key = true
    · exact entryLt_of_keyLt _ _ (bytesLt_trans _ _ _ k1 k2)
    · rw [Bool.not_eq_true] at k2
      by_cases k3 : bytesLt c.key b.key = true
      · rw [entryLt_false_of_keyGt b c k3] at h2
        cases h2
      · rw [Bool.not_eq_true] at k3
        have he : b.key = c.key := bytesLt_conn _ _ k2 k3
        exact entryLt_of_keyLt _ _ (by rw [← he]; exact k1)
  · rw [Bool.not_eq_true] at k1
    by_cases k1r : bytesLt b.key a.key = true
    · rw [entryLt_false_of_keyGt a b k1r] at h1
      cases h1
    · rw [Bool.not_eq_true] at k1r
      have heab : a.key = b.key := bytesLt_conn _ _ k1 k1r
      by_cases k2 : bytesLt b.key c.key = true
      · exact entryLt_of_keyLt _ _ (by rw [heab]; exact k2)
      · rw [Bool.not_eq_true] at k2
        by_cases k2r : bytesLt c.key b.key = true
        · rw [entryLt_false_of_keyGt b c k2r] at h2
          cases h2
        · rw [Bool.not_eq_true] at k2r
          have hebc : b.key = c.key := bytesLt_conn _ _ k2 k2r
          rw [entryLt_keyeq a b heab] at h1
          rw [entryLt_keyeq b c hebc] at h2
          rw [entryLt_keyeq a c (heab.trans hebc)]
          exact entryLtVP_trans a b c h1 h2

theorem entryLt_conn (a b : MergeEntry) (h1 : entryLt a b = false)
    (h2 : entryLt b a = false) :
    a.key = b.key ∧ a.val = b.val ∧ a.pid = b.pid := by
  have k1 := keyLt_false_of_entryLt_false a b h1
  have k2 := keyLt_false_of_entryLt_false b a h2
  have hk : a.key = b.key := bytesLt_conn _ _ k1 k2
  rw [entryLt_keyeq a b hk] at h1
  rw [entryLt_keyeq b a hk.symm] at h2
  refine ⟨hk, ?_, ?_⟩
  · by_cases v1 : bytesLt a.val b.val = true
    · rw [show entryLtVP a b = true from by simp [entryLtVP, v1]] at h1
      cases h1
    · rw [Bool.not_eq_true] at v1
      by_cases v2 : bytesLt b.val a.val = true
      · rw [show entryLtVP b a = true from by simp [entryLtVP, v2]] at h2
        cases h2
      · rw [Bool.not_eq_true] at v2
        exact bytesLt_conn _ _ v1 v2
  · by_cases v1 : bytesLt a.val b.val = true
    · rw [show entryLtVP a b = true from by simp [entryLtVP, v1]] at h1
      cases h1
    · rw [Bool.not_eq_true] at v1
      by_cases v2 : bytesLt b.val a.val = true
      · rw [show entryLtVP b a = true from by simp [entryLtVP, v2]] at h2
        cases h2
      · rw [Bool.not_eq_true] at v2
        have h1p : ¬ a.pid < b.pid := by
          rw [show entryLtVP a b = decide (a.pid < b.pid) from by
            simp [entryLtVP, v1, v2]] at h1
          simpa using h1
        have h2p : ¬ b.pid < a.pid := by
          rw [show entryLtVP b a = decide (b.pid < a.pid) from by
            simp [entryLtVP, v1, v2]] at h2
          simpa using h2
        omega

theorem entryLt_congr (a b c : MergeEntry) (hk : a.key = b.key)
    (hv : a.val = b.val) (hp : a.pid = b.pid) : entryLt a c = entryLt b c := by
  simp [entryLt, hk, hv, hp]

/-- Pop the least heap entry: the minimum of the live cursors with respect to
`entryLt` (the heap's pop order), together with the remaining entries. -/
def selectMin : List MergeEntry → Option (MergeEntry × List MergeEntry)
  | [] => none
  | c :: cs =>
    match selectMin cs with
    | none => some (c, [])
    | some (m, rest) => if entryLt m c then some (m, c :: rest) else some (c, cs)

/-- The merge of `Table.collect`, denotationally: repeatedly yield the least
entry's current item and advance that cursor, dropping it when exhausted.
`fuel` bounds the rounds; `collect` passes the total number of stored
pairs. -/
def mergeLoop : Nat → List MergeEntry → List (Bytes × Bytes)
  | 0, _ => []
  | fuel + 1, cs =>
    match selectMin cs with
    | none => []
    | some (m, others) =>
      (m.key, m.val) ::
        (match m.rest with
         | [] => mergeLoop fuel others
         | e :: t => mergeLoop fuel (⟨m.pid, e.1, e.2, t⟩ :: others))

/-- The initial heap of `collect`: one entry per non-empty partition, indexed
by the `enumerate` counter (`if it.next(): entries.append(...)`). -/
def initCursors : Nat → List (List (Bytes × Bytes)) → List MergeEntry
  | _, [] => []
  | i, [] :: parts => initCursors (i + 1) parts
  | i, (e :: t) :: parts => ⟨i, e.1, e.2, t⟩ :: initCursors (i + 1) parts

/-- All pairs still reachable from the live cursors. -/
def flattenEntries (cs : List MergeEntry) : List (Bytes × Bytes) :=
  cs.flatMap fun c => (c.key, c.val) :: c.rest

/-- The keys still reachable from one cursor. -/
def cursorKeys (c : MergeEntry) : List Bytes := c.key :: c.rest.map Prod.fst

/-- Models `Table.collect`: open a cursor on every partition and merge the
per-partition streams by repeatedly yielding the least `[key, value, _id]`
heap entry. -/
def collect (parts : List (List (Bytes × Bytes))) : List (Bytes × Bytes) :=
  mergeLoop (flattenEntries (initCursors 0 parts)).length (initCursors 0 parts)

theorem selectMin_eq_none (cs : List MergeEntry) (h : selectMin cs = none) :
    cs = [] := by
  cases cs with
  | nil => rfl
  | cons c cs2 =>
    exfalso
    simp only [selectMin] at h
    cases hrec : selectMin cs2 with
    | none => rw [hrec] at h; simp only [] at h; cases h
    | some pr =>
      obtain ⟨m, rest⟩ := pr
      rw [hrec] at h
      simp only [] at h
      by_cases hlt : entryLt m c = true
      · rw [if_pos hlt] at h; cases h
      · rw [if_neg hlt] at h; cases h

theorem selectMin_perm (cs : List MergeEntry) :
    ∀ m others, selectMin cs = some (m, others) → cs.Perm (m :: others) := by
  induction cs with
  | nil => intro m others h; cases h
  | cons c cs2 ih =>
    intro m others h
    simp only [selectMin] at h
    cases hrec : selectMin cs2 with
    | none =>
      have := selectMin_eq_none cs2 hrec
      subst this
      rw [hrec] at h
      simp only [] at h
      cases h
      exact List.Perm.refl _
    | some pr =>
      obtain ⟨m2, rest2⟩ := pr
      rw [hrec] at h
      simp only [] at h
      by_cases hlt : entryLt m2 c = true
      · rw [if_pos hlt] at h
        cases h
        exact (List.Perm.cons c (ih _ rest2 hrec)).trans
          (List.Perm.swap _ c rest2)
      · rw [if_neg hlt] at h
        cases h
        exact List.Perm.refl _

theorem selectMin_min (cs : List MergeEntry) :
    ∀ m others, selectMin cs = some (m, others) →
    ∀ x ∈ cs, entryLt x m = false := by
  induction cs with
  | nil => intro m others h; cases h
  | cons c cs2 ih =>
    intro m others h x hx
    simp only [selectMin] at h
    cases hrec : selectMin cs2 with
    | none =>
      have := selectMin_eq_none cs2 hrec
      subst this
      rw [hrec] at h
      simp only [] at h
      cases h
      rcases List.mem_cons.1 hx with rfl | hx2
      · exact entryLt_irrefl x
      · cases hx2
    | some pr =>
      obtain ⟨m2, rest2⟩ := pr
      rw [hrec] at h
      simp only [] at h
      have hmin2 := ih m2 rest2 hrec
      by_cases hlt : entryLt m2 c = true
      · rw [if_pos hlt] at h
        cases h
        rcases List.mem_cons.1 hx with rfl | hx2
        · exact entryLt_asymm _ x hlt
        · exact hmin2 x hx2
      · rw [if_neg hlt] at h
        cases h
        rw [Bool.not_eq_true] at hlt
        rcases List.mem_cons.1 hx with rfl | hx2
        · exact entryLt_irrefl x
        · by_cases hxc : entryLt x c = true
          · exfalso
            have hxm2 := hmin2 x hx2
            by_cases hm2x : entryLt m2 x = true
            · rw [entryLt_trans m2 x c hm2x hxc] at hlt
              cases hlt
            · rw [Bool.not_eq_true] at hm2x
              obtain ⟨hk, hv, hp⟩ := entryLt_conn x m2 hxm2 hm2x
              rw [entryLt_congr x m2 c hk hv hp] at hxc
              rw [hxc] at hlt
              cases hlt
          · exact Bool.not_eq_true _ ▸ (by simpa using hxc)

theorem mergeLoop_perm : ∀ (fuel : Nat) (cs : List MergeEntry),
    (flattenEntries cs).length ≤ fuel →
    (mergeLoop fuel cs).Perm (flattenEntries cs) := by
  intro fuel
  induction fuel with
  | zero =>
    intro cs h
    have hflat : flattenEntries cs = [] := List.length_eq_zero.1 (Nat.le_zero.1 h)
    rw [hflat]
    exact List.Perm.refl []
  | succ fuel ih =>
    intro cs h
    cases hsel : selectMin cs with
    | none =>
      have hnil := selectMin_eq_none cs hsel
      subst hnil
      simp [mergeLoop, selectMin, flattenEntries]
    | some pr =>
      obtain ⟨m, others⟩ := pr
      have hperm := selectMin_perm cs m others hsel
      have hflat : (flattenEntries cs).Perm
          ((m.key, m.val) :: (m.rest ++ flattenEntries others)) := by
        have h2 := List.Perm.flatMap_right
          (fun c => (c.key, c.val) :: c.rest) hperm
        simpa [flattenEntries, List.flatMap_cons] using h2
      have hlen : 1 + m.rest.length + (flattenEntries others).length ≤
          fuel + 1 := by
        have hl := hflat.length_eq
        simp only [List.length_cons, List.length_append] at hl
        omega
      simp only [mergeLoop]
      rw [hsel]
      simp only []
      cases hrest : m.rest with
      | nil =>
        rw [hrest] at hflat hlen
        simp only [List.nil_append, List.length_nil] at hflat hlen
        have hrec := ih others (by omega)
        exact (List.Perm.cons _ hrec).trans hflat.symm
      | cons e t =>
        rw [hrest] at hflat hlen
        simp only [List.length_cons] at hlen
        have hrec := ih (⟨m.pid, e.1, e.2, t⟩ :: others) (by
          simp only [flattenEntries, List.flatMap_cons, List.length_append,
            List.length_cons] at hlen ⊢
          omega)
        refine (List.Perm.cons (m.key, m.val) ?_).trans hflat.symm
        refine hrec.trans ?_
        simp only [flattenEntries, List.flatMap_cons]
        exact List.Perm.refl _

theorem flatten_mem_keys (cs : List MergeEntry) (y : Bytes × Bytes)
    (h : y ∈ flattenEntries cs) : ∃ d ∈ cs, y.1 ∈ cursorKeys d := by
  rw [flattenEntries, List.mem_flatMap] at h
  obtain ⟨c, hc, hy⟩ := h
  refine ⟨c, hc, ?_⟩
  rcases List.mem_cons.1 hy with rfl | hy2
  · exact List.mem_cons_self _ _
  · exact List.mem_cons_of_mem _ (List.mem_map_of_mem Prod.fst hy2)

theorem merge_lower_bound (m d : MergeEntry) (y1 : Bytes)
    (hd_sort : (cursorKeys d).Pairwise fun a b => bytesLt a b = true)
    (hdm : entryLt d m = false)
    (hR : ∀ k, k ∈ cursorKeys m → k ∈ cursorKeys d → False)
    (hy : y1 ∈ cursorKeys d) : bytesLt m.key y1 = true := by
  have hw : bytesLt y1 m.key = false := by
    rcases List.mem_cons.1 hy with rfl | hy2
    · exact keyLt_false_of_entryLt_false d m hdm
    · have h1 : bytesLt d.key y1 = true := (List.pairwise_cons.1 hd_sort).1 y1 hy2
      by_cases hc : bytesLt y1 m.key = true
      · have h2 := bytesLt_trans d.key y1 m.key h1 hc
        rw [keyLt_false_of_entryLt_false d m hdm] at h2
        cases h2
      · rw [Bool.not_eq_true] at hc
        exact hc
  have hne : m.key ≠ y1 := by
    intro he
    exact hR m.key (List.mem_cons_self _ _) (he ▸ hy)
  by_cases hc : bytesLt m.key y1 = true
  · exact hc
  · exfalso
    rw [Bool.not_eq_true] at hc
    exact hne (bytesLt_conn m.key y1 hc hw)

theorem mergeLoop_sorted : ∀ (fuel : Nat) (cs : List MergeEntry),
    (flattenEntries cs).length ≤ fuel →
    (∀ c ∈ cs, (cursorKeys c).Pairwise fun a b => bytesLt a b = true) →
    cs.Pairwise (fun c d => ∀ k, k ∈ cursorKeys c → k ∈ cursorKeys d → False) →
    (mergeLoop fuel cs).Pairwise fun x y => bytesLt x.1 y.1 = true := by
  intro fuel
  induction fuel with
  | zero =>
    intro cs _ _ _
    simp [mergeLoop]
  | succ fuel ih =>
    intro cs h hsort hdisj
    cases hsel : selectMin cs with
    | none =>
      have hnil := selectMin_eq_none cs hsel
      subst hnil
      simp [mergeLoop, selectMin]
    | some pr =>
      obtain ⟨m, others⟩ := pr
      have hperm := selectMin_perm cs m others hsel
      have hmin := selectMin_min cs m others hsel
      have hm_mem : m ∈ cs := hperm.mem_iff.2 (List.mem_cons_self _ _)
      have hothers_sub : ∀ d ∈ others, d ∈ cs := fun d hd =>
        hperm.mem_iff.2 (List.mem_cons_of_mem _ hd)
      have hdisj2 :=
        (hperm.pairwise_iff (fun hcd k h1 h2 => hcd k h2 h1)).1 hdisj
      have hRm : ∀ d ∈ others, ∀ k, k ∈ cursorKeys m → k ∈ cursorKeys d → False :=
        (List.pairwise_cons.1 hdisj2).1
      have hdisjO : others.Pairwise _ := (List.pairwise_cons.1 hdisj2).2
      have hsortm := hsort m hm_mem
      have hflat : (flattenEntries cs).Perm
          ((m.key, m.val) :: (m.rest ++ flattenEntries others)) := by
        have h2 := List.Perm.flatMap_right
          (fun c => (c.key, c.val) :: c.rest) hperm
        simpa [flattenEntries, List.flatMap_cons] using h2
      have hlen : 1 + m.rest.length + (flattenEntries others).length ≤
          fuel + 1 := by
        have hl := hflat.length_eq
        simp only [List.length_cons, List.length_append] at hl
        omega
      simp only [mergeLoop]
      rw [hsel]
      simp only []
      cases hrest : m.rest with
      | nil =>
        rw [List.pairwise_cons]
        constructor
        · intro y hy
          have hbound : (flattenEntries others).length ≤ fuel := by
            rw [hrest] at hlen
            simp only [List.length_nil] at hlen
            omega
          have hymem : y ∈ flattenEntries others :=
            (mergeLoop_perm fuel others hbound).mem_iff.1 hy
          obtain ⟨d, hd, hyk⟩ := flatten_mem_keys others y hymem
          exact merge_lower_bound m d y.1
            (hsort d (hothers_sub d hd))
            (hmin d (hothers_sub d hd))
            (hRm d hd) hyk
        · exact ih others
            (by rw [hrest] at hlen; simp only [List.length_nil] at hlen; omega)
            (fun c hc => hsort c (hothers_sub c hc)) hdisjO
      | cons e t =>
        have hkeys2 : cursorKeys ⟨m.pid, e.1, e.2, t⟩ =
            e.1 :: t.map Prod.fst := rfl
        have hkeysm : cursorKeys m = m.key :: (e.1 :: t.map Prod.fst) := by
          rw [cursorKeys, hrest]
          rfl
        have hsub : ∀ k, k ∈ cursorKeys ⟨m.pid, e.1, e.2, t⟩ →
            k ∈ cursorKeys m := by
          intro k hk
          rw [hkeysm]
          rw [hkeys2] at hk
          exact List.mem_cons_of_mem _ hk
        have hbound : (flattenEntries (⟨m.pid, e.1, e.2, t⟩ :: others)).length ≤
            fuel := by
          rw [hrest] at hlen
          simp only [flattenEntries, List.flatMap_cons, List.length_append,
            List.length_cons] at hlen ⊢
          omega
        rw [List.pairwise_cons]
        constructor
        · intro y hy
          have hymem : y ∈ flattenEntries (⟨m.pid, e.1, e.2, t⟩ :: others) :=
            (mergeLoop_perm fuel _ hbound).mem_iff.1 hy
          obtain ⟨d, hd, hyk⟩ := flatten_mem_keys _ y hymem
          rcases List.mem_cons.1 hd with rfl | hd2
          · have : y.1 ∈ e.1 :: t.map Prod.fst := by rw [← hkeys2]; exact hyk
            have hsm := hsortm
            rw [hkeysm] at hsm
            exact (List.pairwise_cons.1 hsm).1 y.1 this
          · exact merge_lower_bound m d y.1
              (hsort d (hothers_sub d hd2))
              (hmin d (hothers_sub d hd2))
              (hRm d hd2) hyk
        · refine ih _ hbound ?_ ?_
          · intro c hc
            rcases List.mem_cons.1 hc with rfl | hc2
            · have hsm := hsortm
              rw [hkeysm] at hsm
              exact (List.pairwise_cons.1 hsm).2
            · exact hsort c (hothers_sub c hc2)
          · rw [List.pairwise_cons]
            refine ⟨?_, hdisjO⟩
            intro d hd k hk1 hk2
            exact hRm d hd k (hsub k hk1) hk2

/-- Bool: the key stream of a partition cursor is strictly increasing — the
LMDB cursor-order invariant of every partition database. -/
def chainKeysB : List Bytes → Bool
  | [] => true
  | [_] => true
  | a :: b :: rest => bytesLt a b && chainKeysB (b :: rest)

/-- Bool: the partition's entries are in strictly increasing key order. -/
def partSortedB (s : Store) : Bool := chainKeysB (s.map Prod.fst)

/-- Bool: no key occurs in two different partitions of the table. -/
def partsDisjointB : List Store → Bool
  | [] => true
  | s :: rest => noKeyOverlapB s rest && partsDisjointB rest

theorem chainKeysB_pairwise (l : List Bytes) (h : chainKeysB l = true) :
    l.Pairwise fun a b => bytesLt a b = true := by
  induction l with
  | nil => exact List.Pairwise.nil
  | cons a t ih =>
    cases t with
    | nil => simp
    | cons b t2 =>
      simp only [chainKeysB, Bool.and_eq_true] at h
      have hpair := ih h.2
      rw [List.pairwise_cons]
      refine ⟨?_, hpair⟩
      intro y hy
      rcases List.mem_cons.1 hy with rfl | hy2
      · exact h.1
      · have h2 : bytesLt b y = true := (List.pairwise_cons.1 hpair).1 y hy2
        exact bytesLt_trans a b y h.1 h2

theorem keyMemB_eq_mem (k : Bytes) (s : Store) :
    keyMemB k s = true ↔ k ∈ s.map Prod.fst := by
  simp only [keyMemB, List.any_eq_true, List.mem_map, decide_eq_true_eq]

theorem flatten_init (parts : List (List (Bytes × Bytes))) :
    ∀ i, flattenEntries (initCursors i parts) = parts.flatten := by
  induction parts with
  | nil => intro i; rfl
  | cons s rest ih =>
    intro i
    cases s with
    | nil =>
      show flattenEntries (initCursors (i + 1) rest) = [] ++ rest.flatten
      rw [ih (i + 1), List.nil_append]
    | cons e t =>
      show ((e.1, e.2) :: t) ++ flattenEntries (initCursors (i + 1) rest) =
        (e :: t) ++ rest.flatten
      rw [ih (i + 1)]

theorem init_mem (parts : List (List (Bytes × Bytes))) :
    ∀ i c, c ∈ initCursors i parts →
      ∃ s ∈ parts, cursorKeys c = s.map Prod.fst := by
  induction parts with
  | nil => intro i c h; cases h
  | cons s rest ih =>
    intro i c h
    cases s with
    | nil =>
      obtain ⟨s2, hs2, hk⟩ := ih (i + 1) c h
      exact ⟨s2, List.mem_cons_of_mem _ hs2, hk⟩
    | cons e t =>
      rcases List.mem_cons.1 h with rfl | h2
      · exact ⟨e :: t, List.mem_cons_self _ _, rfl⟩
      · obtain ⟨s2, hs2, hk⟩ := ih (i + 1) c h2
        exact ⟨s2, List.mem_cons_of_mem _ hs2, hk⟩

theorem init_sorted (parts : List (List (Bytes × Bytes)))
    (hs : parts.all partSortedB = true) :
    ∀ i, ∀ c ∈ initCursors i parts,
      (cursorKeys c).Pairwise fun a b => bytesLt a b = true := by
  intro i c hc
  obtain ⟨s, hsmem, hk⟩ := init_mem parts i c hc
  rw [hk]
  rw [List.all_eq_true] at hs
  exact chainKeysB_pairwise _ (hs s hsmem)

theorem init_disjoint (parts : List (List (Bytes × Bytes)))
    (hd : partsDisjointB parts = true) :
    ∀ i, (initCursors i parts).Pairwise
      fun c d => ∀ k, k ∈ cursorKeys c → k ∈ cursorKeys d → False := by
  induction parts with
  | nil => intro i; exact List.Pairwise.nil
  | cons s rest ih =>
    intro i
    simp only [partsDisjointB, Bool.and_eq_true] at hd
    cases s with
    | nil => exact ih hd.2 (i + 1)
    | cons e t =>
      show List.Pairwise _ (⟨i, e.1, e.2, t⟩ :: initCursors (i + 1) rest)
      rw [List.pairwise_cons]
      refine ⟨?_, ih hd.2 (i + 1)⟩
      intro d hdmem k hk1 hk2
      obtain ⟨s2, hs2, hkeys⟩ := init_mem rest (i + 1) d hdmem
      rw [hkeys] at hk2
      have hk1b : k ∈ (e :: t).map Prod.fst := hk1
      rw [List.mem_map] at hk1b
      obtain ⟨e2, he2, hek⟩ := hk1b
      simp only [noKeyOverlapB, List.all_eq_true, Bool.not_eq_true'] at hd
      have hfalse := hd.1 e2 he2 s2 hs2
      rw [hek] at hfalse
      rw [← Bool.not_eq_true, keyMemB_eq_mem] at hfalse
      exact hfalse hk2

/-- C4 (counterexample to the claim as stated): a table whose two partitions
both hold key `[7]` — constructible with `put` under two different
partitioners — makes `collect` yield that key twice, so the key sequence is
not strictly increasing. -/
theorem collect_strict_counterexample :
    collect [[([7], [1])], [([7], [2])]] = [([7], [1]), ([7], [2])] ∧
    ¬ (collect [[([7], [1])], [([7], [2])]]).Pairwise
        (fun x y => bytesLt x.1 y.1 = true) := by
  refine ⟨rfl, ?_⟩
  intro hp
  rw [show collect [[([7], [1])], [([7], [2])]] = [([7], [1]), ([7], [2])]
    from rfl] at hp
  have h2 := (List.pairwise_cons.1 hp).1 ([7], [2]) (List.mem_cons_self _ _)
  exact absurd h2 (by decide)

theorem merge_lower_bound_le (m d : MergeEntry) (y1 : Bytes)
    (hd_sort : (cursorKeys d).Pairwise fun a b => bytesLt a b = true)
    (hdm : entryLt d m = false)
    (hy : y1 ∈ cursorKeys d) : bytesLt y1 m.key = false := by
  rcases List.mem_cons.1 hy with rfl | hy2
  · exact keyLt_false_of_entryLt_false d m hdm
  · have h1 : bytesLt d.key y1 = true := (List.pairwise_cons.1 hd_sort).1 y1 hy2
    by_cases hc : bytesLt y1 m.key = true
    · have h2 := bytesLt_trans d.key y1 m.key h1 hc
      rw [keyLt_false_of_entryLt_false d m hdm] at h2
      cases h2
    · rw [Bool.not_eq_true] at hc
      exact hc

theorem mergeLoop_sorted_le : ∀ (fuel : Nat) (cs : List MergeEntry),
    (flattenEntries cs).length ≤ fuel →
    (∀ c ∈ cs, (cursorKeys c).Pairwise fun a b => bytesLt a b = true) →
    (mergeLoop fuel cs).Pairwise fun x y => bytesLt y.1 x.1 = false := by
  intro fuel
  induction fuel with
  | zero =>
    intro cs _ _
    simp [mergeLoop]
  | succ fuel ih =>
    intro cs h hsort
    cases hsel : selectMin cs with
    | none =>
      have hnil := selectMin_eq_none cs hsel
      subst hnil
      simp [mergeLoop, selectMin]
    | some pr =>
      obtain ⟨m, others⟩ := pr
      have hperm := selectMin_perm cs m others hsel
      have hmin := selectMin_min cs m others hsel
      have hm_mem : m ∈ cs := hperm.mem_iff.2 (List.mem_cons_self _ _)
      have hothers_sub : ∀ d ∈ others, d ∈ cs := fun d hd =>
        hperm.mem_iff.2 (List.mem_cons_of_mem _ hd)
      have hsortm := hsort m hm_mem
      have hflat : (flattenEntries cs).Perm
          ((m.key, m.val) :: (m.rest ++ flattenEntries others)) := by
        have h2 := List.Perm.flatMap_right
          (fun c => (c.key, c.val) :: c.rest) hperm
        simpa [flattenEntries, List.flatMap_cons] using h2
      have hlen : 1 + m.rest.length + (flattenEntries others).length ≤
          fuel + 1 := by
        have hl := hflat.length_eq
        simp only [List.length_cons, List.length_append] at hl
        omega
      simp only [mergeLoop]
      rw [hsel]
      simp only []
      cases hrest : m.rest with
      | nil =>
        rw [List.pairwise_cons]
        constructor
        · intro y hy
          have hbound : (flattenEntries others).length ≤ fuel := by
            rw [hrest] at hlen
            simp only [List.length_nil] at hlen
            omega
          have hymem : y ∈ flattenEntries others :=
            (mergeLoop_perm fuel others hbound).mem_iff.1 hy
          obtain ⟨d, hd, hyk⟩ := flatten_mem_keys others y hymem
          exact merge_lower_bound_le m d y.1
            (hsort d (hothers_sub d hd))
            (hmin d (hothers_sub d hd)) hyk
        · exact ih others
            (by rw [hrest] at hlen; simp only [List.length_nil] at hlen; omega)
            (fun c hc => hsort c (hothers_sub c hc))
      | cons e t =>
        have hkeys2 : cursorKeys ⟨m.pid, e.1, e.2, t⟩ =
            e.1 :: t.map Prod.fst := rfl
        have hkeysm : cursorKeys m = m.key :: (e.1 :: t.map Prod.fst) := by
          rw [cursorKeys, hrest]
          rfl
        have hbound : (flattenEntries (⟨m.pid, e.1, e.2, t⟩ :: others)).length ≤
            fuel := by
          rw [hrest] at hlen
          simp only [flattenEntries, List.flatMap_cons, List.length_append,
            List.length_cons] at hlen ⊢
          omega
        rw [List.pairwise_cons]
        constructor
        · intro y hy
          have hymem : y ∈ flattenEntries (⟨m.pid, e.1, e.2, t⟩ :: others) :=
            (mergeLoop_perm fuel _ hbound).mem_iff.1 hy
          obtain ⟨d, hd, hyk⟩ := flatten_mem_keys _ y hymem
          rcases List.mem_cons.1 hd with rfl | hd2
          · have hmem2 : y.1 ∈ e.1 :: t.map Prod.fst := by
              rw [← hkeys2]
              exact hyk
            have hsm := hsortm
            rw [hkeysm] at hsm
            have hstrict := (List.pairwise_cons.1 hsm).1 y.1 hmem2
            exact bytesLt_asymm m.key y.1 hstrict
          · exact merge_lower_bound_le m d y.1
              (hsort d (hothers_sub d hd2))
              (hmin d (hothers_sub d hd2)) hyk
        · refine ih _ hbound ?_
          intro c hc
          rcases List.mem_cons.1 hc with rfl | hc2
          · have hsm := hsortm
            rw [hkeysm] at hsm
            exact (List.pairwise_cons.1 hsm).2
          · exact hsort c (hothers_sub c hc2)

/-- C4 (amended): `collect` always yields exactly the key-value pairs stored
across all partitions — a permutation of their concatenation — and, each
partition's cursor stream being in strictly increasing key order (the LMDB
invariant), the merged stream is in non-decreasing byte-lexicographic key
order; the order is strictly increasing whenever no key occurs in more than
one partition, in particular whenever all writes used a single
partitioner. -/
theorem collect_merge_spec (parts : List (List (Bytes × Bytes)))
    (hsorted : parts.all partSortedB = true) :
    (collect parts).Perm parts.flatten ∧
    ((collect parts).Pairwise fun x y => bytesLt y.1 x.1 = false) ∧
    (partsDisjointB parts = true →
      (collect parts).Pairwise fun x y => bytesLt x.1 y.1 = true) := by
  have hflat := flatten_init parts 0
  refine ⟨?_, ?_, ?_⟩
  · have hperm := mergeLoop_perm (flattenEntries (initCursors 0 parts)).length
      (initCursors 0 parts) (le_refl _)
    rw [collect, ← hflat]
    exact hperm
  · exact mergeLoop_sorted_le _ _ (le_refl _) (init_sorted parts hsorted 0)
  · intro hdisj
    exact mergeLoop_sorted _ _ (le_refl _)
      (init_sorted parts hsorted 0) (init_disjoint parts hdisj 0)

/-- Witness for `collect_merge_spec` on a two-partition table with disjoint
keys: permutation, non-decreasing order, and (keys being disjoint) strictly
increasing order. -/
theorem collect_merge_spec_witness :
    (collect [[([1], [10])], [([2], [20])]]).Perm
      ([[([1], [10])], [([2], [20])]] :
        List (List (Bytes × Bytes))).flatten ∧
    ((collect [[([1], [10])], [([2], [20])]]).Pairwise
      fun x y => bytesLt y.1 x.1 = false) ∧
    (collect [[([1], [10])], [([2], [20])]]).Pairwise
      (fun x y => bytesLt x.1 y.1 = true) := by
  have h := collect_merge_spec [[([1], [10])], [([2], [20])]] (by decide)
  exact ⟨h.1, h.2.1, h.2.2 (by decide)⟩
